import Mathlib

/-!
Shallow embedding of the `id-manager` Rust crate (LenHolgate/lens-rust).

The generic unsigned id type `T` (u8 .. usize) is modelled as `Nat` together
with an explicit type maximum `MAXV` (`T::MAX`); `T::MIN` is `0` for every
supported type.  Rust panics are modelled as `Option.none`.  The
`BTreeSet<Interval<T>>` backing `Intervals` is modelled as a list kept sorted
by the `Ord for Interval` comparison, with `btreeInsert` / `btreeRemove` /
range probes mirroring the `BTreeSet` operations used by the source.
-/

namespace IdM

/-- Closed interval of id values, from `src/id-manager/src/interval.rs`. -/
structure Interval where
  lower : Nat
  upper : Nat
deriving DecidableEq

/-- The panicking constructor `Interval::new`; the `upper < lower` panic is
modelled as `none`. -/
def Interval.new (lower upper : Nat) : Option Interval :=
  if upper < lower then none else some ⟨lower, upper⟩

/-- `Interval::new_single_value_interval`, which never fails. -/
def Interval.new_single_value_interval (value : Nat) : Interval :=
  ⟨value, value⟩

/-- `Interval::contains_value`. -/
def Interval.contains_value (s : Interval) (value : Nat) : Bool :=
  decide (value ≥ s.lower) && decide (value ≤ s.upper)

/-- `Interval::overlaps` (closed, inclusive intersection test). -/
def Interval.overlaps (s value : Interval) : Bool :=
  decide (value.upper ≥ s.lower) && decide (value.lower ≤ s.upper)

/-- `Interval::extends_lower`: `value` is exactly adjacent below `self`,
guarding the `+ 1` against overflow past `T::MAX` (`MAXV`). -/
def Interval.extends_lower (MAXV : Nat) (s value : Interval) : Bool :=
  if value.upper = MAXV then false
  else decide (value.upper + 1 = s.lower)

/-- `Interval::extends_upper`: `value` is exactly adjacent above `self`,
guarding the `- 1` against underflow past `T::MIN` (`0`). -/
def Interval.extends_upper (s value : Interval) : Bool :=
  if value.lower = 0 then false
  else decide (value.lower - 1 = s.upper)

/-- The manual `Ord for Interval` implementation in `interval.rs`. -/
def Interval.cmp (a other : Interval) : Ordering :=
  let lower_is := compare a.lower other.lower
  let upper_is := compare a.upper other.upper
  if lower_is = Ordering.lt then Ordering.lt
  else if upper_is = Ordering.gt then Ordering.gt
  else if upper_is = Ordering.lt then Ordering.lt
  else if lower_is = Ordering.gt then Ordering.gt
  else Ordering.eq

/-- Rendering of one interval, from `impl fmt::Display for Interval`. -/
def Interval.dump (s : Interval) : String :=
  if s.lower = s.upper then "[" ++ toString s.lower ++ "]"
  else "[" ++ toString s.lower ++ "," ++ toString s.upper ++ "]"

theorem Interval.cmp_eq_eq_iff (a b : Interval) : Interval.cmp a b = .eq ↔ a = b := by
  unfold Interval.cmp
  cases a with
  | mk al au =>
    cases b with
    | mk bl bu =>
      simp only [Interval.mk.injEq]
      split_ifs with h1 h2 h3 h4 <;>
        simp_all [Nat.compare_eq_lt, Nat.compare_eq_gt, Nat.compare_eq_eq] <;> omega

theorem Interval.cmp_eq_lt_iff (a b : Interval) :
    Interval.cmp a b = .lt ↔ a.lower < b.lower ∨ (b.lower ≤ a.lower ∧ a.upper < b.upper) := by
  unfold Interval.cmp
  dsimp only
  split_ifs with h1 h2 h3 h4 <;>
    simp_all [Nat.compare_eq_lt, Nat.compare_eq_gt, Nat.compare_eq_eq] <;> omega

theorem Interval.cmp_eq_gt_iff (a b : Interval) :
    Interval.cmp a b = .gt ↔
      (b.lower ≤ a.lower ∧ b.upper < a.upper) ∨ (b.lower < a.lower ∧ a.upper = b.upper) := by
  unfold Interval.cmp
  dsimp only
  split_ifs with h1 h2 h3 h4 <;>
    simp_all [Nat.compare_eq_lt, Nat.compare_eq_gt, Nat.compare_eq_eq] <;> omega

theorem Interval.overlaps_iff (s value : Interval) :
    Interval.overlaps s value = true ↔ s.lower ≤ value.upper ∧ value.lower ≤ s.upper := by
  unfold Interval.overlaps
  simp [ge_iff_le]

theorem Interval.contains_value_iff (s : Interval) (v : Nat) :
    Interval.contains_value s v = true ↔ s.lower ≤ v ∧ v ≤ s.upper := by
  unfold Interval.contains_value
  simp [ge_iff_le]

/-- Insertion into the sorted-list model of `BTreeSet<Interval<T>>`: place the
new element at its position under `Interval.cmp`; an element comparing equal is
already the same interval (`cmp_eq_eq_iff`), so the set is unchanged, as with
`BTreeSet::insert`. -/
def btreeInsert (x : Interval) : List Interval → List Interval
  | [] => [x]
  | y :: ys =>
    match Interval.cmp x y with
    | .lt => x :: y :: ys
    | .eq => y :: ys
    | .gt => y :: btreeInsert x ys

/-- Removal from the sorted-list model of `BTreeSet<Interval<T>>`: drop the
first element comparing equal to `x` under `Interval.cmp`, as with
`BTreeSet::remove`. -/
def btreeRemove (x : Interval) : List Interval → List Interval
  | [] => []
  | y :: ys =>
    match Interval.cmp x y with
    | .eq => ys
    | _ => y :: btreeRemove x ys

/-- The elements of `BTreeSet::range((Included(b), Unbounded))`: those whose
`Interval.cmp` against the bound is not `Less`. -/
def rangeGE (l : List Interval) (b : Interval) : List Interval :=
  l.filter fun e =>
    match Interval.cmp e b with
    | .lt => false
    | _ => true

/-- The elements of `BTreeSet::range((Unbounded, Excluded(b)))`: those whose
`Interval.cmp` against the bound is `Less`. -/
def rangeLT (l : List Interval) (b : Interval) : List Interval :=
  l.filter fun e =>
    match Interval.cmp e b with
    | .lt => true
    | _ => false

/-- The elements of `BTreeSet::range((Unbounded, Included(b)))`: those whose
`Interval.cmp` against the bound is not `Greater`. -/
def rangeLE (l : List Interval) (b : Interval) : List Interval :=
  l.filter fun e =>
    match Interval.cmp e b with
    | .gt => false
    | _ => true

/-- The ordered disjoint-interval set of `src/id-manager/src/intervals.rs`,
holding the `BTreeSet<Interval<T>>` in its sorted-list model. -/
structure Intervals where
  intervals : List Interval
deriving DecidableEq

/-- `Intervals::new`. -/
def Intervals.new : Intervals := ⟨[]⟩

/-- `Intervals::is_empty`. -/
def Intervals.is_empty (s : Intervals) : Bool := s.intervals.isEmpty

/-- `Intervals::dump` via `impl fmt::Display for Intervals` (comma-space
separated interval renderings, in ascending order). -/
def Intervals.dump (s : Intervals) : String :=
  String.intercalate ", " (s.intervals.map Interval.dump)

/-- The second probe of `Intervals::find`: the minimum of
`range((Included(interval), Unbounded))`, kept when it overlaps. -/
def Intervals.findAfter (s : Intervals) (interval : Interval) : Option Interval :=
  match (rangeGE s.intervals interval).head? with
  | some next => if next.overlaps interval then some next else none
  | none => none

/-- `Intervals::find`: probe the greatest element at or before `interval`,
then the least element at or after it, returning whichever overlaps. -/
def Intervals.find (s : Intervals) (interval : Interval) : Option Interval :=
  match (rangeLE s.intervals interval).getLast? with
  | some prev =>
    if prev.overlaps interval then some prev
    else s.findAfter interval
  | none => s.findAfter interval

/-- `Intervals::remove_first_interval`; the `Empty!` panic is `none`. -/
def Intervals.remove_first_interval (s : Intervals) : Option (Interval × Intervals) :=
  match s.intervals.head? with
  | some first_interval => some (first_interval, ⟨btreeRemove first_interval s.intervals⟩)
  | none => none

/-- `Intervals::remove_first_value`: take the first interval, give out its
lower value, and re-insert the remainder when the interval held more than one
value. -/
def Intervals.remove_first_value (s : Intervals) : Option (Nat × Intervals) :=
  s.remove_first_interval.bind fun r =>
    if r.1.lower ≠ r.1.upper then
      (Interval.new (r.1.lower + 1) r.1.upper).map fun ni =>
        (r.1.lower, ⟨btreeInsert ni r.2.intervals⟩)
    else
      some (r.1.lower, r.2)

/-- `Intervals::remove_value`: locate the containing interval via `find`,
re-insert the split remainders, then remove the original.  Returns `false`
with the set unchanged when no interval contains `value`. -/
def Intervals.remove_value (s : Intervals) (value : Nat) : Option (Bool × Intervals) :=
  match s.find (Interval.new_single_value_interval value) with
  | some interval =>
    (if interval.lower < value then
        (Interval.new interval.lower (value - 1)).map fun ni => btreeInsert ni s.intervals
      else some s.intervals).bind fun l1 =>
    (if value < interval.upper then
        (Interval.new (value + 1) interval.upper).map fun ni => btreeInsert ni l1
      else some l1).bind fun l2 =>
    some (true, ⟨btreeRemove interval l2⟩)
  | none => some (false, s)

/-- Unsigned `- 1` as used by `remove_interval`; underflow below `T::MIN`
(that is, below `0`) is the panic `none`. -/
def checkedSub1 (x : Nat) : Option Nat :=
  if x = 0 then none else some (x - 1)

/-- Unsigned `+ 1` as used by `remove_interval`; overflow above `T::MAX`
(`MAXV`) is the panic `none`. -/
def checkedAdd1 (MAXV x : Nat) : Option Nat :=
  if x = MAXV then none else some (x + 1)

/-- The candidate loop of `Intervals::remove_interval`, accumulating the
`remove_these` and `add_these` sets (both kept in their `BTreeSet` order). -/
def removeIntervalScan (MAXV lower upper : Nat) (interval_to_remove : Interval) :
    List Interval → List Interval × List Interval → Option (List Interval × List Interval)
  | [], acc => some acc
  | interval :: rest, (remove_these, add_these) =>
    let remove_these1 :=
      if interval_to_remove.overlaps interval then btreeInsert interval remove_these
      else if interval.contains_value lower || interval.contains_value upper then
        btreeInsert interval remove_these
      else remove_these
    (if interval.lower < lower ∧ interval.upper ≥ lower then
        (checkedSub1 lower).bind fun x =>
          (Interval.new interval.lower x).map fun ni => btreeInsert ni add_these
      else some add_these).bind fun add_these2 =>
    (if interval.upper > upper ∧ interval.lower ≤ upper then
        (checkedAdd1 MAXV upper).bind fun x =>
          (Interval.new x interval.upper).map fun ni => btreeInsert ni add_these2
      else some add_these2).bind fun add_these3 =>
    removeIntervalScan MAXV lower upper interval_to_remove rest (remove_these1, add_these3)

/-- `Intervals::remove_interval`: scan every interval from the first one whose
position is at or after `[T::MIN, lower]`, collect deletions and remainders,
then apply all deletions and all insertions. -/
def Intervals.remove_interval (MAXV : Nat) (s : Intervals) (lower upper : Nat) :
    Option Intervals :=
  (Interval.new lower upper).bind fun interval_to_remove =>
  (Interval.new 0 lower).bind fun probe =>
  (removeIntervalScan MAXV lower upper interval_to_remove
      (rangeGE s.intervals probe) ([], [])).bind fun acc =>
    some ⟨acc.2.foldl (fun a i => btreeInsert i a)
      (acc.1.foldl (fun a i => btreeRemove i a) s.intervals)⟩

/-- `Intervals::insert_or_join_intervals`: both neighbours exist and neither
overlaps; bridge, absorb into one side, or stand alone. -/
def Intervals.insert_or_join_intervals (MAXV : Nat) (s : Intervals)
    (interval next prev : Interval) : Option Intervals :=
  let next_extends := next.extends_lower MAXV interval
  let prev_extends := prev.extends_upper interval
  if next_extends && prev_extends then
    (Interval.new prev.lower next.upper).map fun ni =>
      ⟨btreeInsert ni (btreeRemove next (btreeRemove prev s.intervals))⟩
  else if next_extends then
    (Interval.new interval.lower next.upper).map fun ni =>
      ⟨btreeInsert ni (btreeRemove next s.intervals)⟩
  else if prev_extends then
    (Interval.new prev.lower interval.upper).map fun ni =>
      ⟨btreeInsert ni (btreeRemove prev s.intervals)⟩
  else some ⟨btreeInsert interval s.intervals⟩

/-- `Intervals::insert_or_merge_with_next`. -/
def Intervals.insert_or_merge_with_next (MAXV : Nat) (s : Intervals)
    (interval next : Interval) : Option Intervals :=
  if next.extends_lower MAXV interval then
    (Interval.new interval.lower next.upper).map fun ni =>
      ⟨btreeInsert ni (btreeRemove next s.intervals)⟩
  else some ⟨btreeInsert interval s.intervals⟩

/-- `Intervals::insert_or_merge_with_prev`. -/
def Intervals.insert_or_merge_with_prev (MAXV : Nat) (s : Intervals)
    (interval prev : Interval) : Option Intervals :=
  if prev.extends_upper interval then
    (Interval.new prev.lower interval.upper).map fun ni =>
      ⟨btreeInsert ni (btreeRemove prev s.intervals)⟩
  else some ⟨btreeInsert interval s.intervals⟩

/-- `Intervals::insert`: probe the nearest neighbour at or after and the
nearest strictly before; refuse (returning `false`, set unchanged) when either
overlaps, otherwise dispatch on which neighbours exist. -/
def Intervals.insert (MAXV : Nat) (s : Intervals) (interval : Interval) :
    Option (Bool × Intervals) :=
  match (rangeGE s.intervals interval).head?, (rangeLT s.intervals interval).getLast? with
  | some next, some prev =>
    if next.overlaps interval then some (false, s)
    else if prev.overlaps interval then some (false, s)
    else (s.insert_or_join_intervals MAXV interval next prev).map fun t => (true, t)
  | some next, none =>
    if next.overlaps interval then some (false, s)
    else (s.insert_or_merge_with_next MAXV interval next).map fun t => (true, t)
  | none, some prev =>
    if prev.overlaps interval then some (false, s)
    else (s.insert_or_merge_with_prev MAXV interval prev).map fun t => (true, t)
  | none, none => some (true, ⟨btreeInsert interval s.intervals⟩)

/-- `Intervals::insert_interval` (the `Interval::new` panic for a malformed
range is `none`). -/
def Intervals.insert_interval (MAXV : Nat) (s : Intervals) (lower upper : Nat) :
    Option (Bool × Intervals) :=
  (Interval.new lower upper).bind (s.insert MAXV)

/-- `Intervals::insert_value`. -/
def Intervals.insert_value (MAXV : Nat) (s : Intervals) (value : Nat) :
    Option (Bool × Intervals) :=
  s.insert MAXV (Interval.new_single_value_interval value)

/-- Modelled from the spec: `reuse_policy.rs` is not under `src/`; the spec
(§3, ReusePolicy) describes a closed choice of two allocation strategies fixed
for the manager's lifetime, named `ReuseFast` (immediate-reuse) and
`ReuseSlow` (delayed-reuse) by the crate's tests. -/
inductive ReusePolicy
  | ReuseFast
  | ReuseSlow
deriving DecidableEq

/-- The id manager of `src/id-manager/src/id_manager.rs`. -/
structure IdManager where
  free_ids : Intervals
  reuse_policy : ReusePolicy
  next_to_allocate : Nat
  min_id : Nat
  max_id : Nat
deriving DecidableEq

/-- `IdManager::new_limited_range`: all ids in the inclusive range start free;
the cursor starts at `min_id`.  A `max_id < min_id` bound panics inside
`Interval::new` (`none`). -/
def IdManager.new_limited_range (MAXV : Nat) (reuse_policy : ReusePolicy)
    (min_id max_id : Nat) : Option IdManager :=
  let manager : IdManager :=
    { free_ids := Intervals.new, reuse_policy, next_to_allocate := min_id, min_id, max_id }
  (manager.free_ids.insert_interval MAXV min_id max_id).map fun r =>
    { manager with free_ids := r.2 }

/-- `IdManager::new`: the full range of the numeric type. -/
def IdManager.new (MAXV : Nat) (reuse_policy : ReusePolicy) : Option IdManager :=
  IdManager.new_limited_range MAXV reuse_policy 0 MAXV

/-- `IdManager::dump`. -/
def IdManager.dump (m : IdManager) : String := m.free_ids.dump

/-- `IdManager::can_allocate`. -/
def IdManager.can_allocate (m : IdManager) : Bool := !m.free_ids.is_empty

/-- `IdManager::increment_id`: step the cursor, wrapping from `max_id` back to
`min_id`. -/
def IdManager.increment_id (m : IdManager) (id : Nat) : Nat :=
  if id = m.max_id then m.min_id else id + 1

/-- The delayed-reuse `loop` of `IdManager::allocate`, with explicit fuel: the
Rust loop repeatedly test-and-removes the cursor value and advances the
(wrapping) cursor, forever; exhausting the fuel models non-termination as
`none`. -/
def allocateScan (m : IdManager) : Nat → Nat → Option (Nat × IdManager)
  | 0, _ => none
  | fuel + 1, cursor =>
    (m.free_ids.remove_value cursor).bind fun r =>
      if r.1 then
        some (cursor,
          { m with free_ids := r.2, next_to_allocate := m.increment_id cursor })
      else
        allocateScan m fuel (m.increment_id cursor)

/-- `IdManager::allocate`: the `No Ids available` panic on an empty pool is
`none`; immediate-reuse delegates to `remove_first_value`; delayed-reuse runs
the cursor scan, given fuel `max_id + 1 - min_id` (the size of the id range,
which suffices by the termination theorem below). -/
def IdManager.allocate (m : IdManager) : Option (Nat × IdManager) :=
  if m.free_ids.is_empty then none
  else
    match m.reuse_policy with
    | .ReuseFast =>
      m.free_ids.remove_first_value.map fun r => (r.1, { m with free_ids := r.2 })
    | .ReuseSlow =>
      allocateScan m (m.max_id + 1 - m.min_id) m.next_to_allocate

/-- `IdManager::mark_value_as_used`, with the range check exactly as written
in the source: `id < self.min_id && id > self.max_id`. -/
def IdManager.mark_value_as_used (m : IdManager) (id : Nat) : Option IdManager :=
  if id < m.min_id ∧ id > m.max_id then none
  else (m.free_ids.remove_value id).map fun r => { m with free_ids := r.2 }

/-- `IdManager::mark_interval_as_used`, with both range checks exactly as
written in the source (`&&` between the two bound comparisons). -/
def IdManager.mark_interval_as_used (MAXV : Nat) (m : IdManager) (lower upper : Nat) :
    Option IdManager :=
  if lower < m.min_id ∧ lower > m.max_id then none
  else if upper < m.min_id ∧ upper > m.max_id then none
  else (m.free_ids.remove_interval MAXV lower upper).map fun s =>
    { m with free_ids := s }

/-- `IdManager::free`: return the id via `insert_value`; the
`id is not currently allocated` panic when `insert_value` reports an overlap
is `none`. -/
def IdManager.free (MAXV : Nat) (m : IdManager) (id : Nat) : Option IdManager :=
  (m.free_ids.insert_value MAXV id).bind fun r =>
    if r.1 then some { m with free_ids := r.2 } else none

/-! ### The interval-set invariant -/

/-- Separation of two intervals: `a` ends strictly more than one below the
start of `b` (disjoint and not adjacent). -/
def sepRel (a b : Interval) : Prop := a.upper + 1 < b.lower

instance : DecidableRel sepRel := fun a b => by unfold sepRel; infer_instance

/-- Well-formedness of one stored interval relative to bounds `LO ≤ HI`. -/
def Interval.wf (LO HI : Nat) (i : Interval) : Prop :=
  i.lower ≤ i.upper ∧ LO ≤ i.lower ∧ i.upper ≤ HI

instance (LO HI : Nat) (i : Interval) : Decidable (i.wf LO HI) := by
  unfold Interval.wf; infer_instance

/-- The interval-set invariant: the stored list is sorted with pairwise
separated (disjoint, non-adjacent) intervals, each well-formed within
`[LO, HI]`. -/
def Inv (LO HI : Nat) (l : List Interval) : Prop :=
  List.Pairwise sepRel l ∧ ∀ i ∈ l, i.wf LO HI

instance (LO HI : Nat) (l : List Interval) : Decidable (Inv LO HI l) := by
  unfold Inv; exact instDecidableAnd

theorem Inv.nil (LO HI : Nat) : Inv LO HI [] := by simp [Inv]

theorem Inv.sublist {LO HI : Nat} {l t : List Interval} (h : Inv LO HI l)
    (hs : t.Sublist l) : Inv LO HI t :=
  ⟨h.1.sublist hs, fun i hi => h.2 i (hs.mem hi)⟩

theorem Inv.append_iff {LO HI : Nat} {A B : List Interval} :
    Inv LO HI (A ++ B) ↔
      Inv LO HI A ∧ Inv LO HI B ∧ ∀ a ∈ A, ∀ b ∈ B, sepRel a b := by
  constructor
  · intro h
    rcases List.pairwise_append.mp h.1 with ⟨hA, hB, hAB⟩
    exact ⟨⟨hA, fun i hi => h.2 i (by simp [hi])⟩,
           ⟨hB, fun i hi => h.2 i (by simp [hi])⟩, hAB⟩
  · rintro ⟨hA, hB, hAB⟩
    refine ⟨List.pairwise_append.mpr ⟨hA.1, hB.1, hAB⟩, ?_⟩
    intro i hi
    rcases List.mem_append.mp hi with h | h
    · exact hA.2 i h
    · exact hB.2 i h

/-! ### Range-probe splitting lemmas -/

theorem rangeLT_cons (a : Interval) (t : List Interval) (i : Interval) :
    rangeLT (a :: t) i =
      (if Interval.cmp a i = .lt then [a] else []) ++ rangeLT t i := by
  unfold rangeLT
  cases h : Interval.cmp a i <;> simp [List.filter_cons, h]

theorem rangeGE_cons (a : Interval) (t : List Interval) (i : Interval) :
    rangeGE (a :: t) i =
      (if Interval.cmp a i = .lt then [] else [a]) ++ rangeGE t i := by
  unfold rangeGE
  cases h : Interval.cmp a i <;> simp [List.filter_cons, h]

theorem rangeLE_cons (a : Interval) (t : List Interval) (i : Interval) :
    rangeLE (a :: t) i =
      (if Interval.cmp a i = .gt then [] else [a]) ++ rangeLE t i := by
  unfold rangeLE
  cases h : Interval.cmp a i <;> simp [List.filter_cons, h]

theorem rangeLT_nil (i : Interval) : rangeLT [] i = [] := rfl

theorem rangeGE_nil (i : Interval) : rangeGE [] i = [] := rfl

theorem rangeLE_nil (i : Interval) : rangeLE [] i = [] := rfl

theorem rangeLT_append (A B : List Interval) (i : Interval) :
    rangeLT (A ++ B) i = rangeLT A i ++ rangeLT B i := by
  unfold rangeLT; simp [List.filter_append]

theorem rangeGE_append (A B : List Interval) (i : Interval) :
    rangeGE (A ++ B) i = rangeGE A i ++ rangeGE B i := by
  unfold rangeGE; simp [List.filter_append]

theorem rangeLE_append (A B : List Interval) (i : Interval) :
    rangeLE (A ++ B) i = rangeLE A i ++ rangeLE B i := by
  unfold rangeLE; simp [List.filter_append]

theorem mem_rangeLT {l : List Interval} {i e : Interval} (h : e ∈ rangeLT l i) :
    e ∈ l ∧ Interval.cmp e i = .lt := by
  unfold rangeLT at h
  rcases List.mem_filter.mp h with ⟨h1, h2⟩
  refine ⟨h1, ?_⟩
  cases hc : Interval.cmp e i <;> simp [hc] at h2 <;> rfl

theorem mem_rangeGE {l : List Interval} {i e : Interval} (h : e ∈ rangeGE l i) :
    e ∈ l ∧ Interval.cmp e i ≠ .lt := by
  unfold rangeGE at h
  rcases List.mem_filter.mp h with ⟨h1, h2⟩
  refine ⟨h1, ?_⟩
  cases hc : Interval.cmp e i <;> simp [hc] at h2 ⊢

theorem mem_rangeLE {l : List Interval} {i e : Interval} (h : e ∈ rangeLE l i) :
    e ∈ l ∧ Interval.cmp e i ≠ .gt := by
  unfold rangeLE at h
  rcases List.mem_filter.mp h with ⟨h1, h2⟩
  refine ⟨h1, ?_⟩
  cases hc : Interval.cmp e i <;> simp [hc] at h2 ⊢

theorem rangeLT_eq_nil {l : List Interval} {i : Interval}
    (h : ∀ e ∈ l, Interval.cmp e i ≠ .lt) : rangeLT l i = [] := by
  unfold rangeLT
  rw [List.filter_eq_nil_iff]
  intro e he
  cases hc : Interval.cmp e i
  · exact absurd hc (h e he)
  · simp
  · simp

theorem rangeGE_eq_nil {l : List Interval} {i : Interval}
    (h : ∀ e ∈ l, Interval.cmp e i = .lt) : rangeGE l i = [] := by
  unfold rangeGE
  rw [List.filter_eq_nil_iff]
  intro e he
  simp [h e he]

theorem rangeLE_eq_nil {l : List Interval} {i : Interval}
    (h : ∀ e ∈ l, Interval.cmp e i = .gt) : rangeLE l i = [] := by
  unfold rangeLE
  rw [List.filter_eq_nil_iff]
  intro e he
  simp [h e he]

theorem rangeLT_eq_self {l : List Interval} {i : Interval}
    (h : ∀ e ∈ l, Interval.cmp e i = .lt) : rangeLT l i = l := by
  unfold rangeLT
  rw [List.filter_eq_self]
  intro e he
  simp [h e he]

theorem rangeGE_eq_self {l : List Interval} {i : Interval}
    (h : ∀ e ∈ l, Interval.cmp e i ≠ .lt) : rangeGE l i = l := by
  unfold rangeGE
  rw [List.filter_eq_self]
  intro e he
  cases hc : Interval.cmp e i
  · exact absurd hc (h e he)
  · simp
  · simp

theorem rangeLE_eq_self {l : List Interval} {i : Interval}
    (h : ∀ e ∈ l, Interval.cmp e i ≠ .gt) : rangeLE l i = l := by
  unfold rangeLE
  rw [List.filter_eq_self]
  intro e he
  cases hc : Interval.cmp e i
  · simp
  · simp
  · exact absurd hc (h e he)

/-- Splitting a sorted separated list at a probe: the strictly-smaller
elements form a prefix and the rest a suffix. -/
theorem rangeLT_append_rangeGE {LO HI : Nat} {l : List Interval}
    (h : Inv LO HI l) (i : Interval) :
    rangeLT l i ++ rangeGE l i = l := by
  have hp : List.Pairwise
      (fun a b => Interval.cmp b i = .lt → Interval.cmp a i = .lt) l := by
    refine h.1.imp_of_mem ?_
    intro a b ha hb hsep hb2
    have hwa := h.2 a ha
    have hwb := h.2 b hb
    rw [Interval.cmp_eq_lt_iff] at hb2 ⊢
    unfold sepRel at hsep
    unfold Interval.wf at hwa hwb
    omega
  clear h
  induction l with
  | nil => simp [rangeLT_nil, rangeGE_nil]
  | cons a t ih =>
    rcases List.pairwise_cons.mp hp with ⟨ha, ht⟩
    rw [rangeLT_cons, rangeGE_cons]
    by_cases hc : Interval.cmp a i = .lt
    · simp only [hc, if_pos]
      simpa using ih ht
    · simp only [hc, if_neg, List.nil_append]
      have h1 : rangeLT t i = [] := by
        apply rangeLT_eq_nil
        intro e he hlt
        exact hc (ha e he hlt)
      have h2 : rangeGE t i = t := by
        apply rangeGE_eq_self
        intro e he hlt
        exact hc (ha e he hlt)
      simp [h1, h2]

/-! ### Placement lemmas for the BTreeSet model -/

theorem btreeInsert_spec (x : Interval) (L R : List Interval)
    (hL : ∀ e ∈ L, Interval.cmp x e = .gt)
    (hR : ∀ r, R.head? = some r → Interval.cmp x r = .lt) :
    btreeInsert x (L ++ R) = L ++ x :: R := by
  induction L with
  | nil =>
    cases R with
    | nil => rfl
    | cons r t =>
      have := hR r rfl
      simp [btreeInsert, this]
  | cons y L ih =>
    have hy : Interval.cmp x y = .gt := hL y (by simp)
    simp only [List.cons_append, btreeInsert, hy]
    rw [show L.append R = L ++ R from rfl, ih (fun e he => hL e (by simp [he]))]

theorem btreeRemove_of_not_mem {x : Interval} {l : List Interval} (hx : x ∉ l) :
    btreeRemove x l = l := by
  induction l with
  | nil => rfl
  | cons y t ih =>
    have hxy : x ≠ y := fun h => hx (h ▸ List.mem_cons_self y t)
    have hc : Interval.cmp x y ≠ .eq := fun h => hxy ((Interval.cmp_eq_eq_iff x y).mp h)
    have ht := ih (fun h => hx (List.mem_cons_of_mem y h))
    cases h : Interval.cmp x y
    · simp [btreeRemove, h, ht]
    · exact absurd h hc
    · simp [btreeRemove, h, ht]

theorem btreeRemove_spec (x : Interval) (L R : List Interval) (hx : x ∉ L) :
    btreeRemove x (L ++ x :: R) = L ++ R := by
  induction L with
  | nil =>
    have : Interval.cmp x x = .eq := (Interval.cmp_eq_eq_iff x x).mpr rfl
    simp [btreeRemove, this]
  | cons y L ih =>
    have hxy : x ≠ y := fun h => hx (h ▸ List.mem_cons_self y L)
    have hc : Interval.cmp x y ≠ .eq := fun h => hxy ((Interval.cmp_eq_eq_iff x y).mp h)
    have ht := ih (fun h => hx (List.mem_cons_of_mem y h))
    cases h : Interval.cmp x y
    · simp [btreeRemove, h, ht]
    · exact absurd h hc
    · simp [btreeRemove, h, ht]

/-! ### Facts about elements on each side of an insertion probe -/

theorem Inv.nodup {LO HI : Nat} {l : List Interval} (h : Inv LO HI l) : l.Nodup := by
  refine h.1.imp_of_mem ?_
  intro a b ha _ hsep
  unfold sepRel at hsep
  have hwa := h.2 a ha
  unfold Interval.wf at hwa
  intro hab
  subst hab
  omega

theorem prefix_elem_upper_lt {LO HI : Nat} {l : List Interval} {i e : Interval}
    (h : Inv LO HI l) (he : e ∈ rangeLT l i) (hno : e.overlaps i = false)
    (hi : i.lower ≤ i.upper) : e.upper < i.lower := by
  rcases mem_rangeLT he with ⟨hel, hlt⟩
  have hwe := h.2 e hel
  rw [Interval.cmp_eq_lt_iff] at hlt
  have hno2 : ¬(e.lower ≤ i.upper ∧ i.lower ≤ e.upper) := by
    rw [← Interval.overlaps_iff] at *
    simp [hno]
  unfold Interval.wf at hwe
  omega

theorem suffix_elem_lower_gt {LO HI : Nat} {l : List Interval} {i e : Interval}
    (h : Inv LO HI l) (he : e ∈ rangeGE l i) (hno : e.overlaps i = false)
    (hi : i.lower ≤ i.upper) : i.upper < e.lower := by
  rcases mem_rangeGE he with ⟨hel, hge⟩
  have hwe := h.2 e hel
  have hge2 : ¬(e.lower < i.lower ∨ (i.lower ≤ e.lower ∧ e.upper < i.upper)) := by
    rw [← Interval.cmp_eq_lt_iff]
    exact hge
  have hno2 : ¬(e.lower ≤ i.upper ∧ i.lower ≤ e.upper) := by
    rw [← Interval.overlaps_iff] at *
    simp [hno]
  unfold Interval.wf at hwe
  omega

theorem extends_lower_iff (MAXV : Nat) (s value : Interval) :
    Interval.extends_lower MAXV s value = true ↔
      value.upper ≠ MAXV ∧ value.upper + 1 = s.lower := by
  unfold Interval.extends_lower
  split_ifs with h <;> simp [h]

theorem extends_upper_iff (s value : Interval) :
    Interval.extends_upper s value = true ↔
      value.lower ≠ 0 ∧ value.lower - 1 = s.upper := by
  unfold Interval.extends_upper
  split_ifs with h <;> simp [h]

/-- The value computed by a successful, non-overlapping `Intervals::insert`,
written with the probe split made explicit (proved equal to the result of
`insert` below). -/
def insertMerged (MAXV : Nat) (l : List Interval) (i : Interval) : List Interval :=
  match (rangeGE l i).head?, (rangeLT l i).getLast? with
  | some next, some prev =>
    if next.extends_lower MAXV i && prev.extends_upper i then
      (rangeLT l i).dropLast ++ ⟨prev.lower, next.upper⟩ :: (rangeGE l i).tail
    else if next.extends_lower MAXV i then
      rangeLT l i ++ ⟨i.lower, next.upper⟩ :: (rangeGE l i).tail
    else if prev.extends_upper i then
      (rangeLT l i).dropLast ++ ⟨prev.lower, i.upper⟩ :: rangeGE l i
    else rangeLT l i ++ i :: rangeGE l i
  | some next, none =>
    if next.extends_lower MAXV i then ⟨i.lower, next.upper⟩ :: (rangeGE l i).tail
    else i :: rangeGE l i
  | none, some prev =>
    if prev.extends_upper i then (rangeLT l i).dropLast ++ [⟨prev.lower, i.upper⟩]
    else rangeLT l i ++ [i]
  | none, none => [i]

theorem headEqCons {α : Type} {l : List α} {a : α} (h : l.head? = some a) :
    l = a :: l.tail := by
  cases l <;> simp_all

theorem getLastEqConcat {α : Type} {l : List α} {a : α} (h : l.getLast? = some a) :
    l = l.dropLast ++ [a] := by
  induction l using List.reverseRecOn with
  | nil => simp at h
  | append_singleton t b _ =>
    rw [List.getLast?_concat] at h
    cases h
    rw [List.dropLast_concat]


/-- A successful, non-overlapping `Intervals::insert` computes exactly the
split-and-merge description `insertMerged`. -/
theorem Intervals.insert_no_overlap_eq {LO HI MAXV : Nat} {l : List Interval}
    {i : Interval} (h : Inv LO HI l) (hi : i.lower ≤ i.upper)
    (hno : ∀ e ∈ l, e.overlaps i = false) :
    Intervals.insert MAXV ⟨l⟩ i = some (true, ⟨insertMerged MAXV l i⟩) := by
  have hsplit := rangeLT_append_rangeGE h i
  have hPfact : ∀ e ∈ rangeLT l i, e.upper < i.lower := fun e he =>
    prefix_elem_upper_lt h he (hno e (mem_rangeLT he).1) hi
  have hSfact : ∀ e ∈ rangeGE l i, i.upper < e.lower := fun e he =>
    suffix_elem_lower_gt h he (hno e (mem_rangeGE he).1) hi
  have hPwf : ∀ e ∈ rangeLT l i, e.lower ≤ e.upper := fun e he =>
    (h.2 e (mem_rangeLT he).1).1
  have hSwf : ∀ e ∈ rangeGE l i, e.lower ≤ e.upper := fun e he =>
    (h.2 e (mem_rangeGE he).1).1
  have hPpw : List.Pairwise sepRel (rangeLT l i) := h.1.sublist (List.filter_sublist l)
  have hSpw : List.Pairwise sepRel (rangeGE l i) := h.1.sublist (List.filter_sublist l)
  unfold Intervals.insert
  cases hS : (rangeGE l i).head? with
  | none =>
    have hSnil : rangeGE l i = [] := List.head?_eq_none_iff.mp hS
    cases hP : (rangeLT l i).getLast? with
    | none =>
      have hPnil : rangeLT l i = [] := List.getLast?_eq_none_iff.mp hP
      have hlnil : l = [] := by rw [← hsplit, hPnil, hSnil]; rfl
      have hM : insertMerged MAXV l i = [i] := by
        unfold insertMerged
        simp only [hS, hP]
      rw [hM, hlnil]
      rfl
    | some prev =>
      obtain ⟨P', hPsplit⟩ : ∃ P', rangeLT l i = P' ++ [prev] :=
        ⟨(rangeLT l i).dropLast, getLastEqConcat hP⟩
      have hprevP : prev ∈ rangeLT l i := by rw [hPsplit]; simp
      have hprevl : prev ∈ l := (mem_rangeLT hprevP).1
      have hprevno : prev.overlaps i = false := hno prev hprevl
      have hprevu : prev.upper < i.lower := hPfact prev hprevP
      have hpw := h.2 prev hprevl
      have hcut : ∀ e ∈ P', sepRel e prev := by
        intro e he
        rcases List.pairwise_append.mp (hPsplit ▸ hPpw) with ⟨_, _, hx⟩
        exact hx e he prev (by simp)
      have hP'mem : ∀ e ∈ P', e ∈ rangeLT l i := by
        intro e he
        rw [hPsplit]
        exact List.mem_append_left _ he
      have hprevnotinP' : prev ∉ P' := by
        intro hmem
        have := hcut prev hmem
        unfold sepRel at this
        unfold Interval.wf at hpw
        omega
      have hleq : l = P' ++ prev :: [] := by
        rw [← hsplit, hSnil, List.append_nil, hPsplit]
      simp only [hprevno, Bool.false_eq_true, if_false]
      unfold Intervals.insert_or_merge_with_prev
      by_cases hext : prev.extends_upper i = true
      · have hfacts := (extends_upper_iff prev i).mp hext
        have hM : insertMerged MAXV l i = P' ++ [(⟨prev.lower, i.upper⟩ : Interval)] := by
          unfold insertMerged
          simp only [hS, hP, hext, if_pos]
          rw [hPsplit, List.dropLast_concat]
        have hnew : Interval.new prev.lower i.upper
            = some ⟨prev.lower, i.upper⟩ := by
          unfold Interval.new
          rw [if_neg (by unfold Interval.wf at hpw; omega)]
        have hrem : btreeRemove prev l = P' := by
          rw [hleq, btreeRemove_spec prev P' [] hprevnotinP', List.append_nil]
        have hins : btreeInsert ⟨prev.lower, i.upper⟩ (P' ++ ([] : List Interval))
            = P' ++ (⟨prev.lower, i.upper⟩ : Interval) :: [] := by
          refine btreeInsert_spec _ _ _ ?_ ?_
          · intro e he
            have hsep := hcut e he
            have hew := hPwf e (hP'mem e he)
            unfold sepRel at hsep
            rw [Interval.cmp_eq_gt_iff]
            left
            refine ⟨?_, ?_⟩
            · simp only
              omega
            · simp only
              unfold Interval.wf at hpw
              omega
          · intro r hr
            simp at hr
        rw [List.append_nil] at hins
        simp only [hext, if_pos, hnew, Option.map_some']
        rw [hM, hrem, hins]
      · have hextf : prev.extends_upper i = false := by
          cases hx : prev.extends_upper i
          · rfl
          · exact absurd hx hext
        have hM : insertMerged MAXV l i = (P' ++ [prev]) ++ [i] := by
          unfold insertMerged
          simp only [hS, hP, hextf, Bool.false_eq_true, if_false]
          rw [hPsplit]
        have hins0 : btreeInsert i ((P' ++ [prev]) ++ ([] : List Interval))
            = (P' ++ [prev]) ++ i :: [] := by
          refine btreeInsert_spec _ _ _ ?_ ?_
          · intro e he
            rcases List.mem_append.mp he with he | he
            · have hsep := hcut e he
              have heu := hPfact e (hP'mem e he)
              have hew := hPwf e (hP'mem e he)
              unfold sepRel at hsep
              rw [Interval.cmp_eq_gt_iff]
              left
              exact ⟨by omega, by omega⟩
            · have heq : e = prev := by simpa using he
              subst heq
              rw [Interval.cmp_eq_gt_iff]
              left
              unfold Interval.wf at hpw
              exact ⟨by omega, by omega⟩
          · intro r hr
            simp at hr
        have hins : btreeInsert i l = (P' ++ [prev]) ++ [i] := by
          have hleq2 : l = (P' ++ [prev]) ++ ([] : List Interval) := by
            rw [hleq]
            simp
          rw [hleq2, hins0]
        simp only [hextf, Bool.false_eq_true, if_false, hM, hins, Option.map_some']
  | some next =>
    obtain ⟨S', hSsplit⟩ : ∃ S', rangeGE l i = next :: S' :=
      ⟨(rangeGE l i).tail, headEqCons hS⟩
    have hnextS : next ∈ rangeGE l i := by rw [hSsplit]; simp
    have hnextl : next ∈ l := (mem_rangeGE hnextS).1
    have hnextno : next.overlaps i = false := hno next hnextl
    have hnextlow : i.upper < next.lower := hSfact next hnextS
    have hnw := h.2 next hnextl
    have hScut : ∀ r ∈ S', sepRel next r := by
      intro r hr
      exact (List.pairwise_cons.mp (hSsplit ▸ hSpw)).1 r hr
    have hS'mem : ∀ r ∈ S', r ∈ rangeGE l i := by
      intro r hr
      rw [hSsplit]
      exact List.mem_cons_of_mem _ hr
    have hnextnotinP : next ∉ rangeLT l i := by
      intro hmem
      have := hPfact next hmem
      unfold Interval.wf at hnw
      omega
    cases hP : (rangeLT l i).getLast? with
    | none =>
      have hPnil : rangeLT l i = [] := List.getLast?_eq_none_iff.mp hP
      have hleq : l = next :: S' := by
        rw [← hsplit, hPnil, List.nil_append, hSsplit]
      simp only [hnextno, Bool.false_eq_true, if_false]
      unfold Intervals.insert_or_merge_with_next
      by_cases hext : next.extends_lower MAXV i = true
      · have hfacts := (extends_lower_iff MAXV next i).mp hext
        have hM : insertMerged MAXV l i
            = (⟨i.lower, next.upper⟩ : Interval) :: S' := by
          unfold insertMerged
          simp only [hS, hP, hext, if_pos]
          rw [hSsplit, List.tail_cons]
        have hnew : Interval.new i.lower next.upper
            = some ⟨i.lower, next.upper⟩ := by
          unfold Interval.new
          rw [if_neg (by unfold Interval.wf at hnw; omega)]
        have hrem : btreeRemove next l = S' := by
          rw [hleq, show next :: S' = [] ++ next :: S' from rfl]
          rw [btreeRemove_spec]
          · simp
          · simp
        have hins0 : btreeInsert ⟨i.lower, next.upper⟩ ([] ++ S')
            = [] ++ (⟨i.lower, next.upper⟩ : Interval) :: S' := by
          refine btreeInsert_spec _ _ _ ?_ ?_
          · simp
          · intro r hr
            simp only [List.nil_append] at hr
            have hrmem : r ∈ S' := by
              rw [headEqCons hr]
              simp
            have hsep := hScut r hrmem
            unfold sepRel at hsep
            rw [Interval.cmp_eq_lt_iff]
            left
            simp only
            unfold Interval.wf at hnw
            omega
        have hins : btreeInsert ⟨i.lower, next.upper⟩ S'
            = (⟨i.lower, next.upper⟩ : Interval) :: S' := by
          simpa using hins0
        simp only [hext, if_pos, hnew, Option.map_some']
        rw [hM, hrem, hins]
      · have hextf : next.extends_lower MAXV i = false := by
          cases hx : next.extends_lower MAXV i
          · rfl
          · exact absurd hx hext
        have hM : insertMerged MAXV l i = i :: (next :: S') := by
          unfold insertMerged
          simp only [hS, hP, hextf, Bool.false_eq_true, if_false]
          rw [hSsplit]
        have hins0 : btreeInsert i ([] ++ next :: S')
            = [] ++ i :: next :: S' := by
          refine btreeInsert_spec _ _ _ ?_ ?_
          · simp
          · intro r hr
            simp only [List.nil_append, List.head?_cons] at hr
            cases hr
            rw [Interval.cmp_eq_lt_iff]
            left
            omega
        have hins : btreeInsert i l = i :: (next :: S') := by
          rw [hleq]
          simpa using hins0
        simp only [hextf, Bool.false_eq_true, if_false, hM, hins, Option.map_some']
    | some prev =>
      obtain ⟨P', hPsplit⟩ : ∃ P', rangeLT l i = P' ++ [prev] :=
        ⟨(rangeLT l i).dropLast, getLastEqConcat hP⟩
      have hprevP : prev ∈ rangeLT l i := by rw [hPsplit]; simp
      have hprevl : prev ∈ l := (mem_rangeLT hprevP).1
      have hprevno : prev.overlaps i = false := hno prev hprevl
      have hprevu : prev.upper < i.lower := hPfact prev hprevP
      have hpw := h.2 prev hprevl
      have hcut : ∀ e ∈ P', sepRel e prev := by
        intro e he
        rcases List.pairwise_append.mp (hPsplit ▸ hPpw) with ⟨_, _, hx⟩
        exact hx e he prev (by simp)
      have hP'mem : ∀ e ∈ P', e ∈ rangeLT l i := by
        intro e he
        rw [hPsplit]
        exact List.mem_append_left _ he
      have hprevnotinP' : prev ∉ P' := by
        intro hmem
        have := hcut prev hmem
        unfold sepRel at this
        unfold Interval.wf at hpw
        omega
      have hnextnotinP' : next ∉ P' := fun hmem => hnextnotinP (hP'mem next hmem)
      have hl2 : l = P' ++ prev :: next :: S' := by
        rw [← hsplit, hPsplit, hSsplit]
        simp
      simp only [hnextno, hprevno, Bool.false_eq_true, if_false]
      unfold Intervals.insert_or_join_intervals
      dsimp only
      by_cases hne : next.extends_lower MAXV i = true
      · have hnefacts := (extends_lower_iff MAXV next i).mp hne
        by_cases hpe : prev.extends_upper i = true
        · have hpefacts := (extends_upper_iff prev i).mp hpe
          have hM : insertMerged MAXV l i
              = P' ++ (⟨prev.lower, next.upper⟩ : Interval) :: S' := by
            unfold insertMerged
            simp only [hS, hP, hne, hpe, Bool.and_self, if_pos]
            rw [hPsplit, hSsplit, List.dropLast_concat, List.tail_cons]
          have hnew : Interval.new prev.lower next.upper
              = some ⟨prev.lower, next.upper⟩ := by
            unfold Interval.new
            rw [if_neg (by unfold Interval.wf at hpw hnw; omega)]
          have hrem1 : btreeRemove prev l = P' ++ next :: S' := by
            rw [hl2]
            exact btreeRemove_spec prev _ _ hprevnotinP'
          have hrem2 : btreeRemove next (P' ++ next :: S') = P' ++ S' :=
            btreeRemove_spec next _ _ hnextnotinP'
          have hins : btreeInsert ⟨prev.lower, next.upper⟩ (P' ++ S')
              = P' ++ (⟨prev.lower, next.upper⟩ : Interval) :: S' := by
            rw [btreeInsert_spec]
            · intro e he
              have hsep := hcut e he
              have hew := hPwf e (hP'mem e he)
              unfold sepRel at hsep
              rw [Interval.cmp_eq_gt_iff]
              left
              refine ⟨?_, ?_⟩
              · simp only
                omega
              · simp only
                unfold Interval.wf at hpw hnw
                omega
            · intro r hr
              have hrmem : r ∈ S' := by
                rw [headEqCons hr]
                simp
              have hsep := hScut r hrmem
              unfold sepRel at hsep
              rw [Interval.cmp_eq_lt_iff]
              left
              simp only
              unfold Interval.wf at hpw hnw
              omega
          simp only [hne, hpe, Bool.and_self, if_pos, hnew, Option.map_some']
          rw [hM, hrem1, hrem2, hins]
        · have hpef : prev.extends_upper i = false := by
            cases hx : prev.extends_upper i
            · rfl
            · exact absurd hx hpe
          have hM : insertMerged MAXV l i
              = (P' ++ [prev]) ++ (⟨i.lower, next.upper⟩ : Interval) :: S' := by
            unfold insertMerged
            simp only [hS, hP, hne, hpef, Bool.and_false, Bool.false_eq_true,
              if_false, if_pos]
            rw [hPsplit, hSsplit, List.tail_cons]
          have hnew : Interval.new i.lower next.upper
              = some ⟨i.lower, next.upper⟩ := by
            unfold Interval.new
            rw [if_neg (by unfold Interval.wf at hnw; omega)]
          have hrem : btreeRemove next l = (P' ++ [prev]) ++ S' := by
            have : l = (P' ++ [prev]) ++ next :: S' := by
              rw [hl2]
              simp
            rw [this]
            refine btreeRemove_spec next _ _ ?_
            intro hmem
            rcases List.mem_append.mp hmem with hmem | hmem
            · exact hnextnotinP' hmem
            · have heq2 : next = prev := by simpa using hmem
              rw [heq2] at hnextlow
              unfold Interval.wf at hpw
              omega
          have hins : btreeInsert ⟨i.lower, next.upper⟩ ((P' ++ [prev]) ++ S')
              = (P' ++ [prev]) ++ (⟨i.lower, next.upper⟩ : Interval) :: S' := by
            rw [btreeInsert_spec]
            · intro e he
              have heP : e ∈ rangeLT l i := by
                rw [hPsplit]
                exact he
              have heu := hPfact e heP
              have hew := hPwf e heP
              rw [Interval.cmp_eq_gt_iff]
              left
              refine ⟨?_, ?_⟩
              · simp only
                omega
              · simp only
                unfold Interval.wf at hnw
                omega
            · intro r hr
              have hrmem : r ∈ S' := by
                rw [headEqCons hr]
                simp
              have hsep := hScut r hrmem
              unfold sepRel at hsep
              rw [Interval.cmp_eq_lt_iff]
              left
              simp only
              unfold Interval.wf at hnw
              omega
          simp only [hne, hpef, Bool.and_false, Bool.false_eq_true, if_false,
            if_pos, hnew, Option.map_some']
          rw [hM, hrem, hins]
      · have hnef : next.extends_lower MAXV i = false := by
          cases hx : next.extends_lower MAXV i
          · rfl
          · exact absurd hx hne
        by_cases hpe : prev.extends_upper i = true
        · have hpefacts := (extends_upper_iff prev i).mp hpe
          have hM : insertMerged MAXV l i
              = P' ++ (⟨prev.lower, i.upper⟩ : Interval) :: next :: S' := by
            unfold insertMerged
            simp only [hS, hP, hnef, hpe, Bool.false_and, Bool.false_eq_true,
              if_false, if_pos]
            rw [hPsplit, hSsplit, List.dropLast_concat]
          have hnew : Interval.new prev.lower i.upper
              = some ⟨prev.lower, i.upper⟩ := by
            unfold Interval.new
            rw [if_neg (by unfold Interval.wf at hpw; omega)]
          have hrem : btreeRemove prev l = P' ++ next :: S' := by
            rw [hl2]
            exact btreeRemove_spec prev _ _ hprevnotinP'
          have hins : btreeInsert ⟨prev.lower, i.upper⟩ (P' ++ next :: S')
              = P' ++ (⟨prev.lower, i.upper⟩ : Interval) :: next :: S' := by
            rw [btreeInsert_spec]
            · intro e he
              have hsep := hcut e he
              have hew := hPwf e (hP'mem e he)
              unfold sepRel at hsep
              rw [Interval.cmp_eq_gt_iff]
              left
              refine ⟨?_, ?_⟩
              · simp only
                omega
              · simp only
                unfold Interval.wf at hpw
                omega
            · intro r hr
              simp only [List.head?_cons] at hr
              cases hr
              rw [Interval.cmp_eq_lt_iff]
              left
              simp only
              unfold Interval.wf at hpw
              omega
          simp only [hnef, hpe, Bool.false_and, Bool.false_eq_true, if_false,
            if_pos, hnew, Option.map_some']
          rw [hM, hrem, hins]
        · have hpef : prev.extends_upper i = false := by
            cases hx : prev.extends_upper i
            · rfl
            · exact absurd hx hpe
          have hM : insertMerged MAXV l i
              = (P' ++ [prev]) ++ i :: next :: S' := by
            unfold insertMerged
            simp only [hS, hP, hnef, hpef, Bool.false_and, Bool.and_false,
              Bool.false_eq_true, if_false]
            rw [hPsplit, hSsplit]
          have hins : btreeInsert i l = (P' ++ [prev]) ++ i :: next :: S' := by
            have : l = (P' ++ [prev]) ++ next :: S' := by
              rw [hl2]
              simp
            rw [this, btreeInsert_spec]
            · intro e he
              have heP : e ∈ rangeLT l i := by
                rw [hPsplit]
                exact he
              have heu := hPfact e heP
              have hew := hPwf e heP
              rw [Interval.cmp_eq_gt_iff]
              left
              exact ⟨by omega, by omega⟩
            · intro r hr
              simp only [List.head?_cons] at hr
              cases hr
              rw [Interval.cmp_eq_lt_iff]
              left
              omega
          simp only [hnef, hpef, Bool.false_and, Bool.and_false,
            Bool.false_eq_true, if_false, hM, hins, Option.map_some']

/-- Assembling the invariant for a list with a distinguished middle element. -/
theorem inv_append_middle {LO HI : Nat} {A B : List Interval} {x : Interval}
    (hA : Inv LO HI A) (hB : Inv LO HI B) (hx : x.wf LO HI)
    (hAx : ∀ a ∈ A, sepRel a x) (hxB : ∀ b ∈ B, sepRel x b)
    (hAB : ∀ a ∈ A, ∀ b ∈ B, sepRel a b) : Inv LO HI (A ++ x :: B) := by
  rw [Inv.append_iff]
  refine ⟨hA, ?_, ?_⟩
  · refine ⟨List.pairwise_cons.mpr ⟨hxB, hB.1⟩, ?_⟩
    intro e he
    rcases List.mem_cons.mp he with he | he
    · exact he ▸ hx
    · exact hB.2 e he
  · intro a ha b hb
    rcases List.mem_cons.mp hb with hb | hb
    · exact hb ▸ hAx a ha
    · exact hAB a ha b hb

/-- The result of a successful, non-overlapping insert satisfies the
interval-set invariant again. -/
theorem insertMerged_inv {LO HI MAXV : Nat} {l : List Interval} {i : Interval}
    (h : Inv LO HI l) (hiw : i.wf LO HI) (hHImax : HI ≤ MAXV)
    (hno : ∀ e ∈ l, e.overlaps i = false) :
    Inv LO HI (insertMerged MAXV l i) := by
  have hi : i.lower ≤ i.upper := hiw.1
  have hsplit := rangeLT_append_rangeGE h i
  have hPfact : ∀ e ∈ rangeLT l i, e.upper < i.lower := fun e he =>
    prefix_elem_upper_lt h he (hno e (mem_rangeLT he).1) hi
  have hSfact : ∀ e ∈ rangeGE l i, i.upper < e.lower := fun e he =>
    suffix_elem_lower_gt h he (hno e (mem_rangeGE he).1) hi
  have hPinv : Inv LO HI (rangeLT l i) := h.sublist (List.filter_sublist l)
  have hSinv : Inv LO HI (rangeGE l i) := h.sublist (List.filter_sublist l)
  have hcross : ∀ a ∈ rangeLT l i, ∀ b ∈ rangeGE l i, sepRel a b := by
    have := hsplit ▸ h
    exact (Inv.append_iff.mp this).2.2
  unfold insertMerged
  cases hS : (rangeGE l i).head? with
  | none =>
    have hSnil : rangeGE l i = [] := List.head?_eq_none_iff.mp hS
    cases hP : (rangeLT l i).getLast? with
    | none =>
      dsimp only
      refine ⟨List.pairwise_singleton _ _, ?_⟩
      intro e he
      rcases List.mem_singleton.mp he with rfl
      exact hiw
    | some prev =>
      obtain ⟨P', hPsplit⟩ : ∃ P', rangeLT l i = P' ++ [prev] :=
        ⟨(rangeLT l i).dropLast, getLastEqConcat hP⟩
      have hprevP : prev ∈ rangeLT l i := by rw [hPsplit]; simp
      have hprevu : prev.upper < i.lower := hPfact prev hprevP
      have hpw := hPinv.2 prev hprevP
      have hcut : ∀ e ∈ P', sepRel e prev := by
        intro e he
        rcases List.pairwise_append.mp (hPsplit ▸ hPinv.1) with ⟨_, _, hx⟩
        exact hx e he prev (by simp)
      have hP'mem : ∀ e ∈ P', e ∈ rangeLT l i := by
        intro e he
        rw [hPsplit]
        exact List.mem_append_left _ he
      have hP'inv : Inv LO HI P' := by
        refine hPinv.sublist ?_
        rw [hPsplit]
        exact List.sublist_append_left P' [prev]
      dsimp only
      rw [hPsplit]
      by_cases hext : prev.extends_upper i = true
      · have hfacts := (extends_upper_iff prev i).mp hext
        rw [if_pos hext, List.dropLast_concat]
        have : P' ++ [(⟨prev.lower, i.upper⟩ : Interval)]
            = P' ++ (⟨prev.lower, i.upper⟩ : Interval) :: [] := rfl
        rw [this]
        refine inv_append_middle hP'inv (Inv.nil LO HI) ?_ ?_ ?_ ?_
        · unfold Interval.wf at hpw hiw ⊢
          simp only
          omega
        · intro a ha
          have := hcut a ha
          unfold sepRel at this ⊢
          simp only
          omega
        · intro b hb
          simp at hb
        · intro a _ b hb
          simp at hb
      · have hextf : prev.extends_upper i = false := by
          cases hx : prev.extends_upper i
          · rfl
          · exact absurd hx hext
        have hadj : prev.upper + 1 < i.lower := by
          have hnot : ¬(i.lower ≠ 0 ∧ i.lower - 1 = prev.upper) := by
            rw [← extends_upper_iff prev i, hextf]
            simp
          push_neg at hnot
          rcases Nat.eq_zero_or_pos i.lower with hz | hz
          · omega
          · have := hnot (by omega)
            omega
        rw [if_neg (by simp [hextf])]
        have : (P' ++ [prev]) ++ [i] = (P' ++ [prev]) ++ i :: [] := rfl
        rw [this]
        refine inv_append_middle (hPsplit ▸ hPinv) (Inv.nil LO HI) hiw ?_ ?_ ?_
        · intro a ha
          rcases List.mem_append.mp ha with ha | ha
          · have := hcut a ha
            unfold sepRel at this ⊢
            unfold Interval.wf at hpw
            omega
          · rcases List.mem_singleton.mp ha with rfl
            exact hadj
        · intro b hb
          simp at hb
        · intro a _ b hb
          simp at hb
  | some next =>
    obtain ⟨S', hSsplit⟩ : ∃ S', rangeGE l i = next :: S' :=
      ⟨(rangeGE l i).tail, headEqCons hS⟩
    have hnextS : next ∈ rangeGE l i := by rw [hSsplit]; simp
    have hnextlow : i.upper < next.lower := hSfact next hnextS
    have hnw := hSinv.2 next hnextS
    have hScut : ∀ r ∈ S', sepRel next r := by
      intro r hr
      exact (List.pairwise_cons.mp (hSsplit ▸ hSinv.1)).1 r hr
    have hS'mem : ∀ r ∈ S', r ∈ rangeGE l i := by
      intro r hr
      rw [hSsplit]
      exact List.mem_cons_of_mem _ hr
    have hS'inv : Inv LO HI S' := by
      refine hSinv.sublist ?_
      rw [hSsplit]
      exact List.sublist_cons_self next S'
    have hadjS : next.extends_lower MAXV i = false → i.upper + 1 < next.lower := by
      intro hextf
      have hnot : ¬(i.upper ≠ MAXV ∧ i.upper + 1 = next.lower) := by
        rw [← extends_lower_iff MAXV next i, hextf]
        simp
      push_neg at hnot
      by_cases hmax : i.upper = MAXV
      · exfalso
        unfold Interval.wf at hnw
        omega
      · have := hnot hmax
        omega
    cases hP : (rangeLT l i).getLast? with
    | none =>
      dsimp only
      by_cases hext : next.extends_lower MAXV i = true
      · have hfacts := (extends_lower_iff MAXV next i).mp hext
        rw [if_pos hext, hSsplit, List.tail_cons]
        have : (⟨i.lower, next.upper⟩ : Interval) :: S'
            = [] ++ (⟨i.lower, next.upper⟩ : Interval) :: S' := rfl
        rw [this]
        refine inv_append_middle (Inv.nil LO HI) hS'inv ?_ ?_ ?_ ?_
        · unfold Interval.wf at hnw hiw ⊢
          simp only
          omega
        · intro a ha
          simp at ha
        · intro b hb
          have := hScut b hb
          unfold sepRel at this ⊢
          simp only
          omega
        · intro a ha
          simp at ha
      · have hextf : next.extends_lower MAXV i = false := by
          cases hx : next.extends_lower MAXV i
          · rfl
          · exact absurd hx hext
        have hadj := hadjS hextf
        rw [if_neg (by simp [hextf])]
        have : i :: rangeGE l i = [] ++ i :: rangeGE l i := rfl
        rw [this]
        refine inv_append_middle (Inv.nil LO HI) hSinv hiw ?_ ?_ ?_
        · intro a ha
          simp at ha
        · intro b hb
          rw [hSsplit] at hb
          rcases List.mem_cons.mp hb with rfl | hb
          · exact hadj
          · have := hScut b hb
            unfold sepRel at this ⊢
            unfold Interval.wf at hnw
            omega
        · intro a ha
          simp at ha
    | some prev =>
      obtain ⟨P', hPsplit⟩ : ∃ P', rangeLT l i = P' ++ [prev] :=
        ⟨(rangeLT l i).dropLast, getLastEqConcat hP⟩
      have hprevP : prev ∈ rangeLT l i := by rw [hPsplit]; simp
      have hprevu : prev.upper < i.lower := hPfact prev hprevP
      have hpw := hPinv.2 prev hprevP
      have hcut : ∀ e ∈ P', sepRel e prev := by
        intro e he
        rcases List.pairwise_append.mp (hPsplit ▸ hPinv.1) with ⟨_, _, hx⟩
        exact hx e he prev (by simp)
      have hP'mem : ∀ e ∈ P', e ∈ rangeLT l i := by
        intro e he
        rw [hPsplit]
        exact List.mem_append_left _ he
      have hP'inv : Inv LO HI P' := by
        refine hPinv.sublist ?_
        rw [hPsplit]
        exact List.sublist_append_left P' [prev]
      have hadjP : prev.extends_upper i = false → prev.upper + 1 < i.lower := by
        intro hextf
        have hnot : ¬(i.lower ≠ 0 ∧ i.lower - 1 = prev.upper) := by
          rw [← extends_upper_iff prev i, hextf]
          simp
        push_neg at hnot
        rcases Nat.eq_zero_or_pos i.lower with hz | hz
        · omega
        · have := hnot (by omega)
          omega
      dsimp only
      by_cases hne : next.extends_lower MAXV i = true
      · have hnefacts := (extends_lower_iff MAXV next i).mp hne
        by_cases hpe : prev.extends_upper i = true
        · have hpefacts := (extends_upper_iff prev i).mp hpe
          rw [if_pos (by simp [hne, hpe]), hPsplit, hSsplit, List.dropLast_concat,
            List.tail_cons]
          refine inv_append_middle hP'inv hS'inv ?_ ?_ ?_ ?_
          · unfold Interval.wf at hpw hnw hiw ⊢
            simp only
            omega
          · intro a ha
            have := hcut a ha
            unfold sepRel at this ⊢
            simp only
            omega
          · intro b hb
            have := hScut b hb
            unfold sepRel at this ⊢
            simp only
            omega
          · intro a ha b hb
            exact hcross a (hP'mem a ha) b (hS'mem b hb)
        · have hpef : prev.extends_upper i = false := by
            cases hx : prev.extends_upper i
            · rfl
            · exact absurd hx hpe
          have hadjp := hadjP hpef
          rw [if_neg (by simp [hpef]), if_pos hne, hSsplit, List.tail_cons]
          refine inv_append_middle hPinv hS'inv ?_ ?_ ?_ ?_
          · unfold Interval.wf at hnw hiw ⊢
            simp only
            omega
          · intro a ha
            rw [hPsplit] at ha
            rcases List.mem_append.mp ha with ha | ha
            · have := hcut a ha
              unfold sepRel at this ⊢
              unfold Interval.wf at hpw
              simp only
              omega
            · rcases List.mem_singleton.mp ha with rfl
              unfold sepRel
              simp only
              omega
          · intro b hb
            have := hScut b hb
            unfold sepRel at this ⊢
            simp only
            omega
          · intro a ha b hb
            exact hcross a ha b (hS'mem b hb)
      · have hnef : next.extends_lower MAXV i = false := by
          cases hx : next.extends_lower MAXV i
          · rfl
          · exact absurd hx hne
        have hadjn := hadjS hnef
        by_cases hpe : prev.extends_upper i = true
        · have hpefacts := (extends_upper_iff prev i).mp hpe
          rw [if_neg (by simp [hnef]), if_neg (by simp [hnef]), if_pos hpe,
            hPsplit, List.dropLast_concat]
          refine inv_append_middle hP'inv hSinv ?_ ?_ ?_ ?_
          · unfold Interval.wf at hpw hiw ⊢
            simp only
            omega
          · intro a ha
            have := hcut a ha
            unfold sepRel at this ⊢
            simp only
            omega
          · intro b hb
            rw [hSsplit] at hb
            rcases List.mem_cons.mp hb with rfl | hb
            · unfold sepRel
              simp only
              omega
            · have := hScut b hb
              unfold sepRel at this ⊢
              unfold Interval.wf at hnw
              simp only
              omega
          · intro a ha b hb
            exact hcross a (hP'mem a ha) b hb
        · have hpef : prev.extends_upper i = false := by
            cases hx : prev.extends_upper i
            · rfl
            · exact absurd hx hpe
          have hadjp := hadjP hpef
          rw [if_neg (by simp [hnef]), if_neg (by simp [hnef]),
            if_neg (by simp [hpef])]
          refine inv_append_middle hPinv hSinv hiw ?_ ?_ ?_
          · intro a ha
            rw [hPsplit] at ha
            rcases List.mem_append.mp ha with ha | ha
            · have := hcut a ha
              unfold sepRel at this ⊢
              unfold Interval.wf at hpw
              omega
            · rcases List.mem_singleton.mp ha with rfl
              exact hadjp
          · intro b hb
            rw [hSsplit] at hb
            rcases List.mem_cons.mp hb with rfl | hb
            · exact hadjn
            · have := hScut b hb
              unfold sepRel at this ⊢
              unfold Interval.wf at hnw
              omega
          · intro a ha b hb
            exact hcross a ha b hb

/-- Any suffix-side element overlapping the probe must be the suffix head. -/
theorem overlap_in_suffix {LO HI : Nat} {l : List Interval} {i next e : Interval}
    (h : Inv LO HI l) (hi : i.lower ≤ i.upper)
    (hS : (rangeGE l i).head? = some next)
    (he : e ∈ rangeGE l i) (hov : e.overlaps i = true) :
    next.overlaps i = true := by
  obtain ⟨S', hSsplit⟩ : ∃ S', rangeGE l i = next :: S' :=
    ⟨(rangeGE l i).tail, headEqCons hS⟩
  have hSpw : List.Pairwise sepRel (rangeGE l i) := h.1.sublist (List.filter_sublist l)
  have hnextS : next ∈ rangeGE l i := by rw [hSsplit]; simp
  have hnge := (mem_rangeGE hnextS).2
  have hnge2 : ¬(next.lower < i.lower ∨ (i.lower ≤ next.lower ∧ next.upper < i.upper)) := by
    rw [← Interval.cmp_eq_lt_iff]
    exact hnge
  rcases List.mem_cons.mp (hSsplit ▸ he) with rfl | he2
  · exact hov
  · exfalso
    have hsep := (List.pairwise_cons.mp (hSsplit ▸ hSpw)).1 e he2
    rw [Interval.overlaps_iff] at hov
    unfold sepRel at hsep
    omega

/-- Any prefix-side element overlapping the probe forces the prefix maximum to
overlap as well. -/
theorem overlap_in_prefix {LO HI : Nat} {l : List Interval} {i prev e : Interval}
    (h : Inv LO HI l) (hi : i.lower ≤ i.upper)
    (hP : (rangeLT l i).getLast? = some prev)
    (he : e ∈ rangeLT l i) (hov : e.overlaps i = true) :
    prev.overlaps i = true := by
  obtain ⟨P', hPsplit⟩ : ∃ P', rangeLT l i = P' ++ [prev] :=
    ⟨(rangeLT l i).dropLast, getLastEqConcat hP⟩
  have hPpw : List.Pairwise sepRel (rangeLT l i) := h.1.sublist (List.filter_sublist l)
  have hprevP : prev ∈ rangeLT l i := by rw [hPsplit]; simp
  have hpw := h.2 prev (mem_rangeLT hprevP).1
  have hplt : prev.lower < i.lower ∨ (i.lower ≤ prev.lower ∧ prev.upper < i.upper) := by
    rw [← Interval.cmp_eq_lt_iff]
    exact (mem_rangeLT hprevP).2
  rcases List.mem_append.mp (hPsplit ▸ he) with he2 | he2
  · have hsep : sepRel e prev := by
      rcases List.pairwise_append.mp (hPsplit ▸ hPpw) with ⟨_, _, hx⟩
      exact hx e he2 prev (by simp)
    rw [Interval.overlaps_iff] at hov ⊢
    unfold sepRel at hsep
    unfold Interval.wf at hpw
    omega
  · rcases List.mem_singleton.mp he2 with rfl
    exact hov

/-- An overlapping `Intervals::insert` returns `false` with the set unchanged. -/
theorem Intervals.insert_overlap_eq {LO HI MAXV : Nat} {l : List Interval}
    {i : Interval} (h : Inv LO HI l) (hi : i.lower ≤ i.upper)
    (hov : ∃ e ∈ l, e.overlaps i = true) :
    Intervals.insert MAXV ⟨l⟩ i = some (false, ⟨l⟩) := by
  have hsplit := rangeLT_append_rangeGE h i
  obtain ⟨e, hel, hove⟩ := hov
  have hePS : e ∈ rangeLT l i ++ rangeGE l i := by rw [hsplit]; exact hel
  unfold Intervals.insert
  cases hS : (rangeGE l i).head? with
  | none =>
    have hSnil : rangeGE l i = [] := List.head?_eq_none_iff.mp hS
    cases hP : (rangeLT l i).getLast? with
    | none =>
      have hPnil : rangeLT l i = [] := List.getLast?_eq_none_iff.mp hP
      rw [hPnil, hSnil] at hePS
      simp at hePS
    | some prev =>
      have heP : e ∈ rangeLT l i := by
        rcases List.mem_append.mp hePS with h2 | h2
        · exact h2
        · rw [hSnil] at h2
          simp at h2
      have := overlap_in_prefix h hi hP heP hove
      dsimp only
      rw [this]
      simp
  | some next =>
    cases hP : (rangeLT l i).getLast? with
    | none =>
      have hPnil : rangeLT l i = [] := List.getLast?_eq_none_iff.mp hP
      have heS : e ∈ rangeGE l i := by
        rcases List.mem_append.mp hePS with h2 | h2
        · rw [hPnil] at h2
          simp at h2
        · exact h2
      have := overlap_in_suffix h hi hS heS hove
      dsimp only
      rw [this]
      simp
    | some prev =>
      rcases List.mem_append.mp hePS with heP | heS
      · have hprevov := overlap_in_prefix h hi hP heP hove
        dsimp only
        by_cases hnext : next.overlaps i = true
        · rw [hnext]
          simp
        · have hnextf : next.overlaps i = false := by
            cases hx : next.overlaps i
            · rfl
            · exact absurd hx hnext
          rw [hnextf, hprevov]
          simp
      · have := overlap_in_suffix h hi hS heS hove
        dsimp only
        rw [this]
        simp

/-- When no stored interval contains `v`, `find` comes back empty. -/
theorem Intervals.find_none {l : List Interval} {v : Nat}
    (hnc : ∀ e ∈ l, e.contains_value v = false) :
    Intervals.find ⟨l⟩ (Interval.new_single_value_interval v) = none := by
  have hno : ∀ e ∈ l, e.overlaps (Interval.new_single_value_interval v) = false := by
    intro e he
    have := hnc e he
    unfold Interval.contains_value at this
    unfold Interval.overlaps Interval.new_single_value_interval
    simpa using this
  unfold Intervals.find Intervals.findAfter
  cases hP : (rangeLE l (Interval.new_single_value_interval v)).getLast? with
  | none =>
    cases hS : (rangeGE l (Interval.new_single_value_interval v)).head? with
    | none => rfl
    | some next =>
      have hnext : next ∈ rangeGE l (Interval.new_single_value_interval v) := by
        rw [headEqCons hS]
        simp
      dsimp only
      rw [hno next (mem_rangeGE hnext).1]
      simp
  | some prev =>
    have hprev : prev ∈ rangeLE l (Interval.new_single_value_interval v) := by
      rw [getLastEqConcat hP]
      simp
    dsimp only
    rw [hno prev (mem_rangeLE hprev).1]
    simp only [Bool.false_eq_true, if_false]
    cases hS : (rangeGE l (Interval.new_single_value_interval v)).head? with
    | none => rfl
    | some next =>
      have hnext : next ∈ rangeGE l (Interval.new_single_value_interval v) := by
        rw [headEqCons hS]
        simp
      dsimp only
      rw [hno next (mem_rangeGE hnext).1]
      simp

/-- When some stored interval contains `v`, `find` returns exactly that
interval. -/
theorem Intervals.find_some {LO HI : Nat} {A B : List Interval} {v : Nat}
    {C : Interval} (h : Inv LO HI (A ++ C :: B))
    (hCc : C.contains_value v = true) :
    Intervals.find ⟨A ++ C :: B⟩ (Interval.new_single_value_interval v) = some C := by
  rcases Inv.append_iff.mp h with ⟨hA, hCB, hcross⟩
  have hB : ∀ b ∈ B, sepRel C b := (List.pairwise_cons.mp hCB.1).1
  have hCw : Interval.wf LO HI C := hCB.2 C (List.mem_cons_self C B)
  have hBwf : ∀ b ∈ B, Interval.wf LO HI b := fun b hb =>
    hCB.2 b (List.mem_cons_of_mem C hb)
  have hAfact : ∀ a ∈ A, a.upper + 1 < C.lower := fun a ha =>
    hcross a ha C (List.mem_cons_self C B)
  have hAwf : ∀ a ∈ A, Interval.wf LO HI a := fun a ha => hA.2 a ha
  rw [Interval.contains_value_iff] at hCc
  have hvl : (Interval.new_single_value_interval v).lower = v := rfl
  have hvu : (Interval.new_single_value_interval v).upper = v := rfl
  have hCov : C.overlaps (Interval.new_single_value_interval v) = true := by
    rw [Interval.overlaps_iff, hvl, hvu]
    omega
  have hBgt : ∀ b ∈ B,
      Interval.cmp b (Interval.new_single_value_interval v) = .gt := by
    intro b hb
    have hsep := hB b hb
    have hw := hBwf b hb
    rw [Interval.cmp_eq_gt_iff, hvl, hvu]
    unfold sepRel at hsep
    unfold Interval.wf at hw
    left
    omega
  have hAlt : ∀ a ∈ A,
      Interval.cmp a (Interval.new_single_value_interval v) = .lt := by
    intro a ha
    have hsep := hAfact a ha
    have hw := hAwf a ha
    rw [Interval.cmp_eq_lt_iff, hvl, hvu]
    unfold Interval.wf at hw
    left
    omega
  unfold Intervals.find Intervals.findAfter
  by_cases hCgt : Interval.cmp C (Interval.new_single_value_interval v) = .gt
  · have hLE : rangeLE (A ++ C :: B) (Interval.new_single_value_interval v)
        = rangeLE A (Interval.new_single_value_interval v) := by
      rw [rangeLE_append, rangeLE_cons, if_pos hCgt, rangeLE_eq_nil hBgt]
      simp
    have hGE : rangeGE (A ++ C :: B) (Interval.new_single_value_interval v)
        = C :: rangeGE B (Interval.new_single_value_interval v) := by
      rw [rangeGE_append, rangeGE_cons,
        if_neg (by rw [hCgt]; intro hx; cases hx),
        rangeGE_eq_nil hAlt, List.nil_append]
      rfl
    rw [hLE, hGE]
    cases hP : (rangeLE A (Interval.new_single_value_interval v)).getLast? with
    | none =>
      simp only [List.head?_cons]
      rw [hCov]
      simp
    | some prev =>
      have hprevA : prev ∈ A :=
        (mem_rangeLE (by rw [getLastEqConcat hP]; simp)).1
      have hprevno : prev.overlaps (Interval.new_single_value_interval v) = false := by
        have hf := hAfact prev hprevA
        have hg : ¬(prev.lower ≤ v ∧ v ≤ prev.upper) := by
          have hC1 : C.lower ≤ v := hCc.1
          omega
        cases hx : prev.overlaps (Interval.new_single_value_interval v)
        · rfl
        · exfalso
          rw [Interval.overlaps_iff, hvl, hvu] at hx
          exact hg hx
      dsimp only
      rw [hprevno]
      simp only [Bool.false_eq_true, if_false, List.head?_cons]
      rw [hCov]
      simp
  · have hLE : rangeLE (A ++ C :: B) (Interval.new_single_value_interval v)
        = rangeLE A (Interval.new_single_value_interval v) ++ [C] := by
      rw [rangeLE_append, rangeLE_cons, if_neg hCgt,
        rangeLE_eq_nil hBgt, List.append_nil]
    rw [hLE, List.getLast?_concat]
    dsimp only
    rw [hCov]
    simp

/-- Left remainder of removing value `v` from its containing interval. -/
def leftPiece (C : Interval) (v : Nat) : List Interval :=
  if C.lower < v then [⟨C.lower, v - 1⟩] else []

/-- Right remainder of removing value `v` from its containing interval. -/
def rightPiece (C : Interval) (v : Nat) : List Interval :=
  if v < C.upper then [⟨v + 1, C.upper⟩] else []

/-- `remove_value` on a value no interval contains: `false`, set unchanged. -/
theorem Intervals.remove_value_none {l : List Interval} {v : Nat}
    (hnc : ∀ e ∈ l, e.contains_value v = false) :
    Intervals.remove_value ⟨l⟩ v = some (false, ⟨l⟩) := by
  unfold Intervals.remove_value
  rw [Intervals.find_none hnc]

/-- `remove_value` on a contained value: `true`, with the containing interval
split into its remainders in place. -/
theorem Intervals.remove_value_some {LO HI : Nat} {A B : List Interval}
    {v : Nat} {C : Interval} (h : Inv LO HI (A ++ C :: B))
    (hCc : C.contains_value v = true) :
    Intervals.remove_value ⟨A ++ C :: B⟩ v
      = some (true, ⟨(A ++ leftPiece C v) ++ (rightPiece C v ++ B)⟩) := by
  rcases Inv.append_iff.mp h with ⟨hA, hCB, hcross⟩
  have hBsep : ∀ b ∈ B, sepRel C b := (List.pairwise_cons.mp hCB.1).1
  have hCw : Interval.wf LO HI C := hCB.2 C (List.mem_cons_self C B)
  have hBwf : ∀ b ∈ B, Interval.wf LO HI b := fun b hb =>
    hCB.2 b (List.mem_cons_of_mem C hb)
  have hAfact : ∀ a ∈ A, a.upper + 1 < C.lower := fun a ha =>
    hcross a ha C (List.mem_cons_self C B)
  have hAwf : ∀ a ∈ A, Interval.wf LO HI a := fun a ha => hA.2 a ha
  have hCnotinA : C ∉ A := by
    intro hmem
    have := hAfact C hmem
    unfold Interval.wf at hCw
    omega
  have hCv := (Interval.contains_value_iff C v).mp hCc
  unfold Intervals.remove_value
  rw [Intervals.find_some h hCc]
  dsimp only
  have hl1 : (if C.lower < v then
        (Interval.new C.lower (v - 1)).map fun ni =>
          btreeInsert ni (⟨A ++ C :: B⟩ : Intervals).intervals
      else some (⟨A ++ C :: B⟩ : Intervals).intervals)
      = some (A ++ (leftPiece C v ++ (C :: B))) := by
    unfold leftPiece
    by_cases hlt : C.lower < v
    · rw [if_pos hlt, if_pos hlt]
      have hnew : Interval.new C.lower (v - 1) = some ⟨C.lower, v - 1⟩ := by
        unfold Interval.new
        rw [if_neg (by omega)]
      rw [hnew, Option.map_some']
      have : btreeInsert ⟨C.lower, v - 1⟩ (A ++ C :: B)
          = A ++ (⟨C.lower, v - 1⟩ : Interval) :: C :: B := by
        refine btreeInsert_spec _ _ _ ?_ ?_
        · intro a ha
          have hf := hAfact a ha
          have hw := hAwf a ha
          rw [Interval.cmp_eq_gt_iff]
          left
          unfold Interval.wf at hw
          refine ⟨by simp only; omega, by simp only; omega⟩
        · intro r hr
          simp only [List.head?_cons] at hr
          cases hr
          rw [Interval.cmp_eq_lt_iff]
          right
          unfold Interval.wf at hCw
          refine ⟨by simp only; omega, by simp only; omega⟩
      rw [this]
      simp
    · rw [if_neg hlt, if_neg hlt]
      simp
  rw [hl1]
  rw [Option.some_bind]
  have hl2 : (if v < C.upper then
        (Interval.new (v + 1) C.upper).map fun ni =>
          btreeInsert ni (A ++ (leftPiece C v ++ (C :: B)))
      else some (A ++ (leftPiece C v ++ (C :: B))))
      = some (((A ++ leftPiece C v) ++ [C]) ++ (rightPiece C v ++ B)) := by
    unfold rightPiece
    by_cases hub : v < C.upper
    · rw [if_pos hub, if_pos hub]
      have hnew : Interval.new (v + 1) C.upper = some ⟨v + 1, C.upper⟩ := by
        unfold Interval.new
        rw [if_neg (by omega)]
      rw [hnew, Option.map_some']
      have harr : A ++ (leftPiece C v ++ (C :: B))
          = ((A ++ leftPiece C v) ++ [C]) ++ B := by
        simp
      have : btreeInsert ⟨v + 1, C.upper⟩ (((A ++ leftPiece C v) ++ [C]) ++ B)
          = ((A ++ leftPiece C v) ++ [C]) ++ (⟨v + 1, C.upper⟩ : Interval) :: B := by
        refine btreeInsert_spec _ _ _ ?_ ?_
        · intro e he
          rcases List.mem_append.mp he with he | he
          · rcases List.mem_append.mp he with he | he
            · have hf := hAfact e he
              have hw := hAwf e he
              rw [Interval.cmp_eq_gt_iff]
              left
              unfold Interval.wf at hw hCw
              refine ⟨by simp only; omega, by simp only; omega⟩
            · unfold leftPiece at he
              by_cases hlt : C.lower < v
              · rw [if_pos hlt] at he
                rcases List.mem_singleton.mp he with rfl
                rw [Interval.cmp_eq_gt_iff]
                left
                refine ⟨by simp only; omega, by simp only; omega⟩
              · rw [if_neg hlt] at he
                simp at he
          · rcases List.mem_singleton.mp he with rfl
            rw [Interval.cmp_eq_gt_iff]
            right
            refine ⟨by simp only; omega, by simp only⟩
        · intro r hr
          have hrB : r ∈ B := by
            rw [headEqCons hr]
            simp
          have hsep := hBsep r hrB
          unfold sepRel at hsep
          rw [Interval.cmp_eq_lt_iff]
          left
          simp only
          omega
      rw [harr, this]
      simp
    · rw [if_neg hub, if_neg hub]
      have : A ++ (leftPiece C v ++ (C :: B))
          = ((A ++ leftPiece C v) ++ [C]) ++ ([] ++ B) := by
        simp
      rw [this]
  rw [hl2]
  rw [Option.some_bind]
  have hCnotinL : C ∉ (A ++ leftPiece C v) := by
    intro hmem
    rcases List.mem_append.mp hmem with hmem | hmem
    · exact hCnotinA hmem
    · unfold leftPiece at hmem
      by_cases hlt : C.lower < v
      · rw [if_pos hlt] at hmem
        rcases List.mem_singleton.mp hmem with heq
        have : C.upper = v - 1 := by rw [heq]
        omega
      · rw [if_neg hlt] at hmem
        simp at hmem
  have hrem : btreeRemove C (((A ++ leftPiece C v) ++ [C]) ++ (rightPiece C v ++ B))
      = (A ++ leftPiece C v) ++ (rightPiece C v ++ B) := by
    have : ((A ++ leftPiece C v) ++ [C]) ++ (rightPiece C v ++ B)
        = (A ++ leftPiece C v) ++ C :: (rightPiece C v ++ B) := by
      simp
    rw [this]
    exact btreeRemove_spec C _ _ hCnotinL
  rw [hrem]

theorem mem_leftPiece {C : Interval} {v : Nat} {e : Interval}
    (he : e ∈ leftPiece C v) : C.lower < v ∧ e = ⟨C.lower, v - 1⟩ := by
  unfold leftPiece at he
  by_cases hlt : C.lower < v
  · rw [if_pos hlt] at he
    exact ⟨hlt, List.mem_singleton.mp he⟩
  · rw [if_neg hlt] at he
    simp at he

theorem mem_rightPiece {C : Interval} {v : Nat} {e : Interval}
    (he : e ∈ rightPiece C v) : v < C.upper ∧ e = ⟨v + 1, C.upper⟩ := by
  unfold rightPiece at he
  by_cases hub : v < C.upper
  · rw [if_pos hub] at he
    exact ⟨hub, List.mem_singleton.mp he⟩
  · rw [if_neg hub] at he
    simp at he

/-- The split produced by `remove_value` satisfies the invariant again. -/
theorem removeValuePieces_inv {LO HI : Nat} {A B : List Interval} {v : Nat}
    {C : Interval} (h : Inv LO HI (A ++ C :: B))
    (hCc : C.contains_value v = true) :
    Inv LO HI ((A ++ leftPiece C v) ++ (rightPiece C v ++ B)) := by
  rcases Inv.append_iff.mp h with ⟨hA, hCB, hcross⟩
  have hBsep : ∀ b ∈ B, sepRel C b := (List.pairwise_cons.mp hCB.1).1
  have hCw : Interval.wf LO HI C := hCB.2 C (List.mem_cons_self C B)
  have hBinv : Inv LO HI B := hCB.sublist (List.sublist_cons_self C B)
  have hAfact : ∀ a ∈ A, a.upper + 1 < C.lower := fun a ha =>
    hcross a ha C (List.mem_cons_self C B)
  have hCv := (Interval.contains_value_iff C v).mp hCc
  rw [Inv.append_iff]
  refine ⟨?_, ?_, ?_⟩
  · rw [Inv.append_iff]
    refine ⟨hA, ?_, ?_⟩
    · constructor
      · unfold leftPiece
        split_ifs
        · exact List.pairwise_singleton _ _
        · exact List.Pairwise.nil
      · intro e he
        rcases mem_leftPiece he with ⟨hlt, rfl⟩
        unfold Interval.wf at hCw ⊢
        simp only
        omega
    · intro a ha e he
      rcases mem_leftPiece he with ⟨hlt, rfl⟩
      have := hAfact a ha
      unfold sepRel
      simp only
      omega
  · rw [Inv.append_iff]
    refine ⟨?_, hBinv, ?_⟩
    · constructor
      · unfold rightPiece
        split_ifs
        · exact List.pairwise_singleton _ _
        · exact List.Pairwise.nil
      · intro e he
        rcases mem_rightPiece he with ⟨hub, rfl⟩
        unfold Interval.wf at hCw ⊢
        simp only
        omega
    · intro e he b hb
      rcases mem_rightPiece he with ⟨hub, rfl⟩
      have := hBsep b hb
      unfold sepRel at this ⊢
      simp only
      omega
  · intro a ha b hb
    rcases List.mem_append.mp ha with ha | ha
    · rcases List.mem_append.mp hb with hb | hb
      · rcases mem_rightPiece hb with ⟨hub, rfl⟩
        have := hAfact a ha
        unfold sepRel
        simp only
        omega
      · exact hcross a ha b (List.mem_cons_of_mem C hb)
    · rcases mem_leftPiece ha with ⟨hlt, rfl⟩
      rcases List.mem_append.mp hb with hb | hb
      · rcases mem_rightPiece hb with ⟨hub, rfl⟩
        unfold sepRel
        simp only
        omega
      · have := hBsep b hb
        unfold sepRel at this ⊢
        unfold Interval.wf at hCw
        simp only
        omega

theorem extends_lower_eq_false (MAXV : Nat) (s value : Interval)
    (h : value.upper = MAXV ∨ value.upper + 1 ≠ s.lower) :
    Interval.extends_lower MAXV s value = false := by
  unfold Interval.extends_lower
  split_ifs with h1
  · rfl
  · rcases h with h | h
    · exact absurd h h1
    · simp [h]

theorem extends_upper_eq_false (s value : Interval)
    (h : value.lower = 0 ∨ value.lower - 1 ≠ s.upper) :
    Interval.extends_upper s value = false := by
  unfold Interval.extends_upper
  split_ifs with h1
  · rfl
  · rcases h with h | h
    · exact absurd h h1
    · simp [h]

theorem extends_lower_eq_true (MAXV : Nat) (s value : Interval)
    (h1 : value.upper ≠ MAXV) (h2 : value.upper + 1 = s.lower) :
    Interval.extends_lower MAXV s value = true := by
  unfold Interval.extends_lower
  rw [if_neg h1]
  simp [h2]

theorem extends_upper_eq_true (s value : Interval)
    (h1 : value.lower ≠ 0) (h2 : value.lower - 1 = s.upper) :
    Interval.extends_upper s value = true := by
  unfold Interval.extends_upper
  rw [if_neg h1]
  simp [h2]

/-- Re-inserting the removed value merges the remainders back into exactly the
original interval list. -/
theorem insertMerged_pieces {LO HI MAXV : Nat} {A B : List Interval} {v : Nat}
    {C : Interval} (h : Inv LO HI (A ++ C :: B))
    (hCc : C.contains_value v = true) (hHImax : HI ≤ MAXV) :
    insertMerged MAXV ((A ++ leftPiece C v) ++ (rightPiece C v ++ B))
        (Interval.new_single_value_interval v)
      = A ++ C :: B := by
  rcases Inv.append_iff.mp h with ⟨hA, hCB, hcross⟩
  have hBsep : ∀ b ∈ B, sepRel C b := (List.pairwise_cons.mp hCB.1).1
  have hCw : Interval.wf LO HI C := hCB.2 C (List.mem_cons_self C B)
  have hBwf : ∀ b ∈ B, Interval.wf LO HI b := fun b hb =>
    hCB.2 b (List.mem_cons_of_mem C hb)
  have hAfact : ∀ a ∈ A, a.upper + 1 < C.lower := fun a ha =>
    hcross a ha C (List.mem_cons_self C B)
  have hAwf : ∀ a ∈ A, Interval.wf LO HI a := fun a ha => hA.2 a ha
  have hCv := (Interval.contains_value_iff C v).mp hCc
  have hvl : (Interval.new_single_value_interval v).lower = v := rfl
  have hvu : (Interval.new_single_value_interval v).upper = v := rfl
  have hAlt : ∀ a ∈ A,
      Interval.cmp a (Interval.new_single_value_interval v) = .lt := by
    intro a ha
    have hf := hAfact a ha
    have hw := hAwf a ha
    rw [Interval.cmp_eq_lt_iff, hvl, hvu]
    unfold Interval.wf at hw
    left
    omega
  have hlplt : ∀ e ∈ leftPiece C v,
      Interval.cmp e (Interval.new_single_value_interval v) = .lt := by
    intro e he
    rcases mem_leftPiece he with ⟨hlt, rfl⟩
    rw [Interval.cmp_eq_lt_iff, hvl, hvu]
    left
    simp only
    omega
  have hrpgt : ∀ e ∈ rightPiece C v,
      Interval.cmp e (Interval.new_single_value_interval v) = .gt := by
    intro e he
    rcases mem_rightPiece he with ⟨hub, rfl⟩
    rw [Interval.cmp_eq_gt_iff, hvl, hvu]
    left
    simp only
    omega
  have hBgt : ∀ b ∈ B,
      Interval.cmp b (Interval.new_single_value_interval v) = .gt := by
    intro b hb
    have hsep := hBsep b hb
    have hw := hBwf b hb
    rw [Interval.cmp_eq_gt_iff, hvl, hvu]
    unfold sepRel at hsep
    unfold Interval.wf at hw
    left
    omega
  have hrpnlt : ∀ e ∈ rightPiece C v,
      Interval.cmp e (Interval.new_single_value_interval v) ≠ .lt := by
    intro e he
    rw [hrpgt e he]
    simp
  have hBnlt : ∀ b ∈ B,
      Interval.cmp b (Interval.new_single_value_interval v) ≠ .lt := by
    intro b hb
    rw [hBgt b hb]
    simp
  have hPeq : rangeLT ((A ++ leftPiece C v) ++ (rightPiece C v ++ B))
      (Interval.new_single_value_interval v) = A ++ leftPiece C v := by
    rw [rangeLT_append, rangeLT_append, rangeLT_append, rangeLT_eq_self hAlt,
      rangeLT_eq_self hlplt, rangeLT_eq_nil hrpnlt, rangeLT_eq_nil hBnlt]
    simp
  have hSeq : rangeGE ((A ++ leftPiece C v) ++ (rightPiece C v ++ B))
      (Interval.new_single_value_interval v) = rightPiece C v ++ B := by
    rw [rangeGE_append, rangeGE_append, rangeGE_append, rangeGE_eq_nil hAlt,
      rangeGE_eq_nil hlplt, rangeGE_eq_self hrpnlt, rangeGE_eq_self hBnlt]
    simp
  unfold insertMerged
  rw [hPeq, hSeq]
  by_cases hCl : C.lower < v
  · have hlpeq : leftPiece C v = [(⟨C.lower, v - 1⟩ : Interval)] := by
      unfold leftPiece
      rw [if_pos hCl]
    by_cases hCu : v < C.upper
    · have hrpeq : rightPiece C v = [(⟨v + 1, C.upper⟩ : Interval)] := by
        unfold rightPiece
        rw [if_pos hCu]
      rw [hlpeq, hrpeq]
      rw [show ([(⟨v + 1, C.upper⟩ : Interval)] ++ B).head?
            = some ⟨v + 1, C.upper⟩ from rfl]
      rw [List.getLast?_concat]
      have hne : Interval.extends_lower MAXV (⟨v + 1, C.upper⟩ : Interval)
          (Interval.new_single_value_interval v) = true := by
        refine extends_lower_eq_true MAXV _ _ ?_ rfl
        rw [hvu]
        unfold Interval.wf at hCw
        omega
      have hpe : Interval.extends_upper (⟨C.lower, v - 1⟩ : Interval)
          (Interval.new_single_value_interval v) = true := by
        refine extends_upper_eq_true _ _ ?_ ?_
        · rw [hvl]
          omega
        · rw [hvl]
      dsimp only
      rw [hne, hpe]
      simp only [Bool.and_self, if_pos, List.dropLast_concat]
      rw [show ([(⟨v + 1, C.upper⟩ : Interval)] ++ B).tail = B from rfl]
    · have hvCu : v = C.upper := by omega
      have hrpeq : rightPiece C v = [] := by
        unfold rightPiece
        rw [if_neg hCu]
      rw [hlpeq, hrpeq, List.nil_append, List.getLast?_concat]
      have hpe : Interval.extends_upper (⟨C.lower, v - 1⟩ : Interval)
          (Interval.new_single_value_interval v) = true := by
        refine extends_upper_eq_true _ _ ?_ ?_
        · rw [hvl]
          omega
        · rw [hvl]
      cases hB : B with
      | nil =>
        simp only [List.head?_nil]
        rw [hpe]
        simp only [if_pos, List.dropLast_concat]
        have : (⟨C.lower, (Interval.new_single_value_interval v).upper⟩ : Interval)
            = C := by
          rw [hvu, hvCu]
        rw [this]
      | cons b B2 =>
        have hbB : b ∈ B := by rw [hB]; simp
        have hne : Interval.extends_lower MAXV b
            (Interval.new_single_value_interval v) = false := by
          refine extends_lower_eq_false MAXV _ _ (Or.inr ?_)
          rw [hvu]
          have := hBsep b hbB
          unfold sepRel at this
          omega
        rw [List.head?_cons]
        dsimp only
        rw [hne, hpe]
        simp only [Bool.false_and, Bool.false_eq_true, if_false, if_pos,
          List.dropLast_concat]
        have : (⟨C.lower, (Interval.new_single_value_interval v).upper⟩ : Interval)
            = C := by
          rw [hvu, hvCu]
        rw [this]
  · have hvCl : C.lower = v := by omega
    have hlpeq : leftPiece C v = [] := by
      unfold leftPiece
      rw [if_neg hCl]
    rw [hlpeq, List.append_nil]
    by_cases hCu : v < C.upper
    · have hrpeq : rightPiece C v = [(⟨v + 1, C.upper⟩ : Interval)] := by
        unfold rightPiece
        rw [if_pos hCu]
      rw [hrpeq]
      rw [show ([(⟨v + 1, C.upper⟩ : Interval)] ++ B).head?
            = some ⟨v + 1, C.upper⟩ from rfl]
      have hne : Interval.extends_lower MAXV (⟨v + 1, C.upper⟩ : Interval)
          (Interval.new_single_value_interval v) = true := by
        refine extends_lower_eq_true MAXV _ _ ?_ rfl
        rw [hvu]
        unfold Interval.wf at hCw
        omega
      cases hP : A.getLast? with
      | none =>
        have hAnil : A = [] := List.getLast?_eq_none_iff.mp hP
        dsimp only
        rw [hne]
        simp only [if_pos]
        rw [show ([(⟨v + 1, C.upper⟩ : Interval)] ++ B).tail = B from rfl]
        have : (⟨(Interval.new_single_value_interval v).lower, C.upper⟩ : Interval)
            = C := by
          rw [hvl, ← hvCl]
        rw [this, hAnil]
        rfl
      | some a0 =>
        have ha0A : a0 ∈ A := by
          rw [getLastEqConcat hP]
          simp
        have hpe : Interval.extends_upper a0
            (Interval.new_single_value_interval v) = false := by
          refine extends_upper_eq_false _ _ ?_
          have := hAfact a0 ha0A
          rw [hvl]
          by_cases hv0 : v = 0
          · exact Or.inl hv0
          · right
            omega
        dsimp only
        rw [hne, hpe]
        simp only [Bool.and_false, Bool.false_eq_true, if_false, if_pos]
        rw [show ([(⟨v + 1, C.upper⟩ : Interval)] ++ B).tail = B from rfl]
        have : (⟨(Interval.new_single_value_interval v).lower, C.upper⟩ : Interval)
            = C := by
          rw [hvl, ← hvCl]
        rw [this]
    · have hvCu : v = C.upper := by omega
      have hCeq : C = Interval.new_single_value_interval v := by
        cases C with
        | mk cl cu =>
          unfold Interval.new_single_value_interval
          simp only at hvCl hvCu
          rw [hvCl, ← hvCu]
      have hrpeq : rightPiece C v = [] := by
        unfold rightPiece
        rw [if_neg hCu]
      rw [hrpeq, List.nil_append]
      cases hB : B with
      | nil =>
        cases hP : A.getLast? with
        | none =>
          have hAnil : A = [] := List.getLast?_eq_none_iff.mp hP
          simp only [List.head?_nil]
          rw [hAnil, ← hCeq]
          rfl
        | some a0 =>
          have ha0A : a0 ∈ A := by
            rw [getLastEqConcat hP]
            simp
          have hpe : Interval.extends_upper a0
              (Interval.new_single_value_interval v) = false := by
            refine extends_upper_eq_false _ _ ?_
            have := hAfact a0 ha0A
            rw [hvl]
            by_cases hv0 : v = 0
            · exact Or.inl hv0
            · right
              omega
          simp only [List.head?_nil]
          rw [hpe]
          simp only [Bool.false_eq_true, if_false]
          rw [← hCeq]
      | cons b B2 =>
        have hbB : b ∈ B := by rw [hB]; simp
        have hne : Interval.extends_lower MAXV b
            (Interval.new_single_value_interval v) = false := by
          refine extends_lower_eq_false MAXV _ _ (Or.inr ?_)
          rw [hvu]
          have := hBsep b hbB
          unfold sepRel at this
          omega
        cases hP : A.getLast? with
        | none =>
          have hAnil : A = [] := List.getLast?_eq_none_iff.mp hP
          rw [List.head?_cons]
          dsimp only
          rw [hne]
          simp only [Bool.false_eq_true, if_false]
          rw [hAnil, ← hCeq]
          rfl
        | some a0 =>
          have ha0A : a0 ∈ A := by
            rw [getLastEqConcat hP]
            simp
          have hpe : Interval.extends_upper a0
              (Interval.new_single_value_interval v) = false := by
            refine extends_upper_eq_false _ _ ?_
            have := hAfact a0 ha0A
            rw [hvl]
            by_cases hv0 : v = 0
            · exact Or.inl hv0
            · right
              omega
          rw [List.head?_cons]
          dsimp only
          rw [hne, hpe]
          simp only [Bool.false_and, Bool.false_eq_true, if_false]
          rw [← hCeq]

theorem overlaps_single_eq_false {e : Interval} {v : Nat}
    (h : ¬(e.lower ≤ v ∧ v ≤ e.upper)) :
    e.overlaps (Interval.new_single_value_interval v) = false := by
  cases hx : e.overlaps (Interval.new_single_value_interval v)
  · rfl
  · exfalso
    rw [Interval.overlaps_iff] at hx
    exact h hx

/-- Freeing the value just removed restores the original interval list. -/
theorem Intervals.insert_value_after_remove {LO HI MAXV : Nat}
    {A B : List Interval} {v : Nat} {C : Interval}
    (h : Inv LO HI (A ++ C :: B)) (hCc : C.contains_value v = true)
    (hHImax : HI ≤ MAXV) :
    Intervals.insert_value MAXV ⟨(A ++ leftPiece C v) ++ (rightPiece C v ++ B)⟩ v
      = some (true, ⟨A ++ C :: B⟩) := by
  rcases Inv.append_iff.mp h with ⟨hA, hCB, hcross⟩
  have hBsep : ∀ b ∈ B, sepRel C b := (List.pairwise_cons.mp hCB.1).1
  have hCw : Interval.wf LO HI C := hCB.2 C (List.mem_cons_self C B)
  have hAfact : ∀ a ∈ A, a.upper + 1 < C.lower := fun a ha =>
    hcross a ha C (List.mem_cons_self C B)
  have hAwf : ∀ a ∈ A, Interval.wf LO HI a := fun a ha => hA.2 a ha
  have hCv := (Interval.contains_value_iff C v).mp hCc
  have hno : ∀ e ∈ (A ++ leftPiece C v) ++ (rightPiece C v ++ B),
      e.overlaps (Interval.new_single_value_interval v) = false := by
    intro e he
    rcases List.mem_append.mp he with he | he
    · rcases List.mem_append.mp he with he | he
      · refine overlaps_single_eq_false ?_
        have := hAfact e he
        omega
      · rcases mem_leftPiece he with ⟨hlt, rfl⟩
        refine overlaps_single_eq_false ?_
        simp only
        omega
    · rcases List.mem_append.mp he with he | he
      · rcases mem_rightPiece he with ⟨hub, rfl⟩
        refine overlaps_single_eq_false ?_
        simp only
        omega
      · refine overlaps_single_eq_false ?_
        have := hBsep e he
        unfold sepRel at this
        omega
  unfold Intervals.insert_value
  rw [Intervals.insert_no_overlap_eq (removeValuePieces_inv h hCc)
    (le_refl v) hno]
  rw [insertMerged_pieces h hCc hHImax]

theorem btreeRemove_cons_self (x : Interval) (t : List Interval) :
    btreeRemove x (x :: t) = t := by
  simpa using btreeRemove_spec x [] t (by simp)

theorem Intervals.remove_first_interval_eq (C : Interval) (rest : List Interval) :
    Intervals.remove_first_interval ⟨C :: rest⟩ = some (C, ⟨rest⟩) := by
  unfold Intervals.remove_first_interval
  simp only [List.head?_cons]
  rw [btreeRemove_cons_self]

/-- `remove_first_value` takes the lower bound of the head interval and keeps
its right remainder. -/
theorem Intervals.remove_first_value_eq {LO HI : Nat} {C : Interval}
    {rest : List Interval} (h : Inv LO HI (C :: rest)) :
    Intervals.remove_first_value ⟨C :: rest⟩
      = some (C.lower, ⟨rightPiece C C.lower ++ rest⟩) := by
  have hCw : Interval.wf LO HI C := h.2 C (List.mem_cons_self C rest)
  have hrsep : ∀ r ∈ rest, sepRel C r := (List.pairwise_cons.mp h.1).1
  unfold Intervals.remove_first_value
  rw [Intervals.remove_first_interval_eq, Option.some_bind]
  dsimp only
  by_cases hne : C.lower = C.upper
  · rw [if_neg (by simp [hne])]
    unfold rightPiece
    rw [if_neg (by omega)]
    rfl
  · rw [if_pos (by simpa using hne)]
    have hnew : Interval.new (C.lower + 1) C.upper
        = some ⟨C.lower + 1, C.upper⟩ := by
      unfold Interval.new
      rw [if_neg (by unfold Interval.wf at hCw; omega)]
    rw [hnew, Option.map_some']
    have hins : btreeInsert ⟨C.lower + 1, C.upper⟩ rest
        = (⟨C.lower + 1, C.upper⟩ : Interval) :: rest := by
      have h0 : btreeInsert ⟨C.lower + 1, C.upper⟩ ([] ++ rest)
          = [] ++ (⟨C.lower + 1, C.upper⟩ : Interval) :: rest := by
        refine btreeInsert_spec _ _ _ ?_ ?_
        · simp
        · intro r hr
          have hrmem : r ∈ rest := by
            rw [headEqCons hr]
            simp
          have := hrsep r hrmem
          unfold sepRel at this
          rw [Interval.cmp_eq_lt_iff]
          left
          simp only
          unfold Interval.wf at hCw
          omega
      simpa using h0
    rw [hins]
    unfold rightPiece
    rw [if_pos (by unfold Interval.wf at hCw; omega)]
    rfl

/-- Characterization of a successful `remove_value` returning `true`. -/
theorem Intervals.remove_value_true_characterize {LO HI : Nat}
    {l : List Interval} {v : Nat} {t : Intervals} (h : Inv LO HI l)
    (heq : Intervals.remove_value ⟨l⟩ v = some (true, t)) :
    ∃ A C B, l = A ++ C :: B ∧ C.contains_value v = true ∧
      t = ⟨(A ++ leftPiece C v) ++ (rightPiece C v ++ B)⟩ := by
  by_cases hc : ∃ C ∈ l, C.contains_value v = true
  · obtain ⟨C, hCl, hCc⟩ := hc
    obtain ⟨A, B, rfl⟩ := List.append_of_mem hCl
    rw [Intervals.remove_value_some h hCc] at heq
    simp only [Option.some_inj, Prod.mk.injEq] at heq
    exact ⟨A, C, B, rfl, hCc, heq.2.symm⟩
  · exfalso
    have hnc : ∀ e ∈ l, e.contains_value v = false := by
      intro e he
      cases hx : e.contains_value v
      · rfl
      · exact absurd ⟨e, he, hx⟩ hc
    rw [Intervals.remove_value_none hnc] at heq
    simp at heq

/-- The invariant the spec states for `IdManager` (§3), together with the
typing facts `min_id ≤ max_id ≤ T::MAX` that the Rust types enforce. -/
def ManagerInv (MAXV : Nat) (m : IdManager) : Prop :=
  Inv m.min_id m.max_id m.free_ids.intervals ∧
  m.min_id ≤ m.next_to_allocate ∧ m.next_to_allocate ≤ m.max_id ∧
  m.min_id ≤ m.max_id ∧ m.max_id ≤ MAXV

instance (MAXV : Nat) (m : IdManager) : Decidable (ManagerInv MAXV m) := by
  unfold ManagerInv; infer_instance

/-- A successful `allocateScan` removes exactly the returned id from the free
set and advances the cursor one step past it. -/
theorem allocateScan_characterize {m : IdManager} {fuel cursor id : Nat}
    {m2 : IdManager}
    (heq : allocateScan m fuel cursor = some (id, m2)) :
    m.free_ids.remove_value id = some (true, m2.free_ids) ∧
    m2 = { m with free_ids := m2.free_ids,
                  next_to_allocate := m.increment_id id } := by
  induction fuel generalizing cursor with
  | zero => cases heq
  | succ fuel ih =>
    unfold allocateScan at heq
    cases hr : m.free_ids.remove_value cursor with
    | none =>
      rw [hr] at heq
      cases heq
    | some r =>
      rw [hr] at heq
      rw [Option.some_bind] at heq
      by_cases hb : r.1 = true
      · rw [if_pos hb] at heq
        obtain ⟨b, s⟩ := r
        simp only at hb
        subst hb
        simp only [Option.some_inj, Prod.mk.injEq] at heq
        obtain ⟨hid, hm2⟩ := heq
        subst hid
        constructor
        · rw [hr, ← hm2]
        · rw [← hm2]
      · rw [if_neg hb] at heq
        exact ih heq

/-- A successful `allocate` hands out a contained id and leaves the free set
split at that id (for either reuse policy). -/
theorem IdManager.allocate_characterize {MAXV : Nat} {m : IdManager} {id : Nat}
    {m2 : IdManager} (hm : ManagerInv MAXV m)
    (heq : m.allocate = some (id, m2)) :
    ∃ A C B, m.free_ids.intervals = A ++ C :: B ∧ C.contains_value id = true ∧
      m2.free_ids = ⟨(A ++ leftPiece C id) ++ (rightPiece C id ++ B)⟩ := by
  unfold IdManager.allocate at heq
  by_cases hemp : m.free_ids.is_empty = true
  · rw [if_pos hemp] at heq
    cases heq
  · rw [if_neg hemp] at heq
    cases hpol : m.reuse_policy with
    | ReuseFast =>
      rw [hpol] at heq
      cases hl : m.free_ids.intervals with
      | nil =>
        exfalso
        apply hemp
        unfold Intervals.is_empty
        rw [hl]
        rfl
      | cons C rest =>
        have hfeq : m.free_ids = ⟨C :: rest⟩ := by rw [← hl]
        have hInv : Inv m.min_id m.max_id (C :: rest) := by
          rw [← hl]
          exact hm.1
        rw [hfeq, Intervals.remove_first_value_eq hInv, Option.map_some'] at heq
        simp only [Option.some_inj, Prod.mk.injEq] at heq
        obtain ⟨hid, hm2⟩ := heq
        refine ⟨[], C, rest, by simpa using hl, ?_, ?_⟩
        · rw [← hid, Interval.contains_value_iff]
          have := hInv.2 C (List.mem_cons_self C rest)
          unfold Interval.wf at this
          omega
        · rw [← hm2]
          subst hid
          have hlp : leftPiece C C.lower = [] := by
            unfold leftPiece
            rw [if_neg (by omega)]
          rw [hlp]
          simp
    | ReuseSlow =>
      rw [hpol] at heq
      obtain ⟨hrv, _⟩ := allocateScan_characterize heq
      obtain ⟨A, C, B, hl, hCc, ht⟩ :=
        Intervals.remove_value_true_characterize hm.1 hrv
      exact ⟨A, C, B, hl, hCc, ht⟩

/-- Freeing the id just allocated succeeds and restores the free set. -/
theorem IdManager.allocate_free_roundtrip {MAXV : Nat} {m : IdManager}
    {id : Nat} {m2 : IdManager} (hm : ManagerInv MAXV m)
    (heq : m.allocate = some (id, m2)) :
    IdManager.free MAXV m2 id = some { m2 with free_ids := m.free_ids } := by
  obtain ⟨A, C, B, hl, hCc, hfree⟩ := IdManager.allocate_characterize hm heq
  have hInv : Inv m.min_id m.max_id (A ++ C :: B) := by
    rw [← hl]
    exact hm.1
  unfold IdManager.free
  rw [hfree, Intervals.insert_value_after_remove hInv hCc hm.2.2.2.2,
    Option.some_bind]
  rw [if_pos rfl]
  have : (⟨A ++ C :: B⟩ : Intervals) = m.free_ids := by
    rw [← hl]
  rw [this]

/-- Splitting a list along a downward-closed boolean predicate. -/
theorem filter_split_pairwise {p : Interval → Bool} :
    ∀ {l : List Interval},
    List.Pairwise (fun a b => p b = true → p a = true) l →
    l.filter p ++ l.filter (fun e => !(p e)) = l := by
  intro l hp
  induction l with
  | nil => rfl
  | cons a t ih =>
    rcases List.pairwise_cons.mp hp with ⟨ha, ht⟩
    cases hpa : p a with
    | true =>
      rw [List.filter_cons_of_pos hpa,
        List.filter_cons_of_neg (by simp [hpa])]
      simpa using ih ht
    | false =>
      rw [List.filter_cons_of_neg (by simp [hpa]),
        List.filter_cons_of_pos (by simp [hpa])]
      have h1 : t.filter p = [] := by
        rw [List.filter_eq_nil_iff]
        intro e he hpe
        rw [ha e he hpe] at hpa
        cases hpa
      have h2 : t.filter (fun e => !(p e)) = t := by
        rw [List.filter_eq_self]
        intro e he
        cases hpe : p e with
        | true =>
          rw [ha e he hpe] at hpa
          cases hpa
        | false => simp [hpe]
      rw [h1, h2]
      rfl

/-- The (at most two) remainder intervals that scanning one candidate of
`remove_interval` inserts into `add_these`. -/
def addsOf (lower upper : Nat) (e : Interval) : List Interval :=
  (if e.lower < lower ∧ e.upper ≥ lower then [⟨e.lower, lower - 1⟩] else []) ++
  (if e.upper > upper ∧ e.lower ≤ upper then [⟨upper + 1, e.upper⟩] else [])

/-- All remainder intervals produced by a candidate list, in order. -/
def addsAll (lower upper : Nat) : List Interval → List Interval
  | [] => []
  | e :: t => addsOf lower upper e ++ addsAll lower upper t

theorem addsAll_cons (lower upper : Nat) (e : Interval) (t : List Interval) :
    addsAll lower upper (e :: t) = addsOf lower upper e ++ addsAll lower upper t :=
  rfl

/-- The deletion condition of the `remove_interval` scan. -/
def removeCond (lower upper : Nat) (e : Interval) : Bool :=
  (⟨lower, upper⟩ : Interval).overlaps e
    || (e.contains_value lower || e.contains_value upper)

theorem mem_addsOf {lower upper : Nat} {e x : Interval}
    (hx : x ∈ addsOf lower upper e) :
    (e.lower < lower ∧ lower ≤ e.upper ∧ x = ⟨e.lower, lower - 1⟩) ∨
    (upper < e.upper ∧ e.lower ≤ upper ∧ x = ⟨upper + 1, e.upper⟩) := by
  unfold addsOf at hx
  rcases List.mem_append.mp hx with hx | hx
  · by_cases h1 : e.lower < lower ∧ e.upper ≥ lower
    · rw [if_pos h1] at hx
      exact Or.inl ⟨h1.1, h1.2, List.mem_singleton.mp hx⟩
    · rw [if_neg h1] at hx
      simp at hx
  · by_cases h2 : e.upper > upper ∧ e.lower ≤ upper
    · rw [if_pos h2] at hx
      exact Or.inr ⟨h2.1, h2.2, List.mem_singleton.mp hx⟩
    · rw [if_neg h2] at hx
      simp at hx

theorem mem_addsAll {lower upper : Nat} {x : Interval} :
    ∀ {cs : List Interval}, x ∈ addsAll lower upper cs →
      ∃ e ∈ cs, x ∈ addsOf lower upper e := by
  intro cs hx
  induction cs with
  | nil => cases hx
  | cons e t ih =>
    unfold addsAll at hx
    rcases List.mem_append.mp hx with hx | hx
    · exact ⟨e, List.mem_cons_self e t, hx⟩
    · obtain ⟨e2, he2, hx2⟩ := ih hx
      exact ⟨e2, List.mem_cons_of_mem e he2, hx2⟩

/-- The candidate scan of `remove_interval`, run on pairwise-separated
candidates whose uppers reach `lower`, never panics and accumulates exactly
the condition-filtered deletions and the per-candidate remainders. -/
theorem scan_general {MAXV lower upper : Nat} (hlu : lower ≤ upper) :
    ∀ (cs rem add : List Interval),
    (∀ e ∈ cs, e.lower ≤ e.upper ∧ e.upper ≤ MAXV) →
    List.Pairwise sepRel cs →
    (∀ e ∈ cs, lower ≤ e.upper) →
    (∀ e ∈ cs, ∀ r ∈ rem, Interval.cmp e r = .gt) →
    (∀ e ∈ cs, ∀ x ∈ addsOf lower upper e, ∀ a ∈ add, Interval.cmp x a = .gt) →
    List.Pairwise (fun e1 e2 => ∀ x1 ∈ addsOf lower upper e1,
      ∀ x2 ∈ addsOf lower upper e2, Interval.cmp x2 x1 = .gt) cs →
    removeIntervalScan MAXV lower upper ⟨lower, upper⟩ cs (rem, add)
      = some (rem ++ cs.filter (removeCond lower upper),
          add ++ addsAll lower upper cs) := by
  intro cs
  induction cs with
  | nil =>
    intro rem add _ _ _ _ _ _
    unfold removeIntervalScan
    simp [addsAll]
  | cons e t ih =>
    intro rem add hwf hpw hcand hrem hadd haddpw
    have hew := hwf e (List.mem_cons_self e t)
    have hecand := hcand e (List.mem_cons_self e t)
    have hsep : ∀ e2 ∈ t, sepRel e e2 := (List.pairwise_cons.mp hpw).1
    have haddcross := (List.pairwise_cons.mp haddpw).1
    unfold removeIntervalScan
    have hrem1 : (if (⟨lower, upper⟩ : Interval).overlaps e
          then btreeInsert e rem
          else if e.contains_value lower || e.contains_value upper then
            btreeInsert e rem
          else rem)
        = rem ++ (if removeCond lower upper e then [e] else []) := by
      have hins : btreeInsert e rem = rem ++ [e] := by
        have h0 : btreeInsert e (rem ++ []) = rem ++ e :: [] := by
          refine btreeInsert_spec _ _ _ ?_ ?_
          · intro r hr
            exact hrem e (List.mem_cons_self e t) r hr
          · intro r hr
            simp at hr
        simpa using h0
      unfold removeCond
      by_cases h1 : (⟨lower, upper⟩ : Interval).overlaps e = true
      · rw [if_pos h1, hins, h1]
        simp
      · have h1f : (⟨lower, upper⟩ : Interval).overlaps e = false := by
          cases hx : (⟨lower, upper⟩ : Interval).overlaps e
          · rfl
          · exact absurd hx h1
        rw [if_neg h1, h1f]
        by_cases h2 : (e.contains_value lower || e.contains_value upper) = true
        · rw [if_pos h2, hins, h2]
          simp
        · have h2f : (e.contains_value lower || e.contains_value upper) = false := by
            cases hx : e.contains_value lower || e.contains_value upper
            · rfl
            · exact absurd hx h2
          rw [if_neg h2, h2f]
          simp
    rw [hrem1]
    have hL : (if e.lower < lower ∧ e.upper ≥ lower then
          (checkedSub1 lower).bind fun x =>
            (Interval.new e.lower x).map fun ni => btreeInsert ni add
        else some add)
        = some (add ++
            (if e.lower < lower ∧ e.upper ≥ lower
              then [(⟨e.lower, lower - 1⟩ : Interval)] else [])) := by
      by_cases hg : e.lower < lower ∧ e.upper ≥ lower
      · rw [if_pos hg, if_pos hg]
        unfold checkedSub1
        rw [if_neg (by omega), Option.some_bind]
        have hnew : Interval.new e.lower (lower - 1)
            = some ⟨e.lower, lower - 1⟩ := by
          unfold Interval.new
          rw [if_neg (by omega)]
        rw [hnew, Option.map_some']
        have hmem : (⟨e.lower, lower - 1⟩ : Interval) ∈ addsOf lower upper e := by
          unfold addsOf
          rw [if_pos hg]
          simp
        have h0 : btreeInsert ⟨e.lower, lower - 1⟩ (add ++ [])
            = add ++ (⟨e.lower, lower - 1⟩ : Interval) :: [] := by
          refine btreeInsert_spec _ _ _ ?_ ?_
          · intro a ha
            exact hadd e (List.mem_cons_self e t) _ hmem a ha
          · intro r hr
            simp at hr
        simp only [List.append_nil] at h0
        rw [h0]
      · rw [if_neg hg, if_neg hg]
        simp
    rw [hL, Option.some_bind]
    have hR : (if e.upper > upper ∧ e.lower ≤ upper then
          (checkedAdd1 MAXV upper).bind fun x =>
            (Interval.new x e.upper).map fun ni =>
              btreeInsert ni (add ++
                (if e.lower < lower ∧ e.upper ≥ lower
                  then [(⟨e.lower, lower - 1⟩ : Interval)] else []))
        else some (add ++
            (if e.lower < lower ∧ e.upper ≥ lower
              then [(⟨e.lower, lower - 1⟩ : Interval)] else [])))
        = some (add ++ addsOf lower upper e) := by
      by_cases hg2 : e.upper > upper ∧ e.lower ≤ upper
      · rw [if_pos hg2]
        unfold checkedAdd1
        rw [if_neg (by omega), Option.some_bind]
        have hnew : Interval.new (upper + 1) e.upper
            = some ⟨upper + 1, e.upper⟩ := by
          unfold Interval.new
          rw [if_neg (by omega)]
        rw [hnew, Option.map_some']
        have hmem : (⟨upper + 1, e.upper⟩ : Interval) ∈ addsOf lower upper e := by
          unfold addsOf
          rw [if_pos hg2]
          simp
        have h0 : btreeInsert ⟨upper + 1, e.upper⟩
              ((add ++
                (if e.lower < lower ∧ e.upper ≥ lower
                  then [(⟨e.lower, lower - 1⟩ : Interval)] else [])) ++ [])
            = (add ++
                (if e.lower < lower ∧ e.upper ≥ lower
                  then [(⟨e.lower, lower - 1⟩ : Interval)] else []))
              ++ (⟨upper + 1, e.upper⟩ : Interval) :: [] := by
          refine btreeInsert_spec _ _ _ ?_ ?_
          · intro a ha
            rcases List.mem_append.mp ha with ha | ha
            · exact hadd e (List.mem_cons_self e t) _ hmem a ha
            · by_cases hg : e.lower < lower ∧ e.upper ≥ lower
              · rw [if_pos hg] at ha
                rcases List.mem_singleton.mp ha with rfl
                rw [Interval.cmp_eq_gt_iff]
                left
                simp only
                omega
              · rw [if_neg hg] at ha
                simp at ha
          · intro r hr
            simp at hr
        simp only [List.append_nil] at h0
        rw [h0]
        unfold addsOf
        rw [if_pos hg2]
        simp
      · rw [if_neg hg2]
        unfold addsOf
        have : (if e.upper > upper ∧ e.lower ≤ upper
            then [(⟨upper + 1, e.upper⟩ : Interval)] else []) = [] := by
          rw [if_neg hg2]
        rw [this, List.append_nil]
    rw [hR, Option.some_bind]
    have hrec := ih (rem ++ (if removeCond lower upper e then [e] else []))
      (add ++ addsOf lower upper e)
      (fun e2 he2 => hwf e2 (List.mem_cons_of_mem e he2))
      (List.pairwise_cons.mp hpw).2
      (fun e2 he2 => hcand e2 (List.mem_cons_of_mem e he2))
      ?_ ?_ (List.pairwise_cons.mp haddpw).2
    · rw [hrec]
      rw [List.filter_cons, addsAll_cons]
      cases hc : removeCond lower upper e
      · simp [hc]
      · simp [hc]
    · intro e2 he2 r hr
      rcases List.mem_append.mp hr with hr | hr
      · exact hrem e2 (List.mem_cons_of_mem e he2) r hr
      · have hre : r = e := by
          by_cases hc : removeCond lower upper e = true
          · rw [if_pos hc] at hr
            exact List.mem_singleton.mp hr
          · rw [if_neg hc] at hr
            cases hr
        subst hre
        have hsep2 := hsep e2 he2
        have hw2 := hwf e2 (List.mem_cons_of_mem r he2)
        unfold sepRel at hsep2
        rw [Interval.cmp_eq_gt_iff]
        left
        constructor
        · omega
        · omega
    · intro e2 he2 x hx a ha
      rcases List.mem_append.mp ha with ha | ha
      · exact hadd e2 (List.mem_cons_of_mem e he2) x hx a ha
      · exact haddcross e2 he2 a ha x hx

/-- The candidate scan never fails when every candidate's upper bound fits the
id type, whatever the accumulators hold. -/
theorem scan_nopanic {MAXV lower upper : Nat} :
    ∀ (cs : List Interval) (acc : List Interval × List Interval),
    (∀ e ∈ cs, e.upper ≤ MAXV) →
    ∃ acc2, removeIntervalScan MAXV lower upper ⟨lower, upper⟩ cs acc = some acc2 := by
  intro cs
  induction cs with
  | nil =>
    intro acc _
    exact ⟨acc, rfl⟩
  | cons e t ih =>
    intro acc hwf
    obtain ⟨rem, add⟩ := acc
    have hew := hwf e (List.mem_cons_self e t)
    unfold removeIntervalScan
    have hL : ∃ add2, (if e.lower < lower ∧ e.upper ≥ lower then
          (checkedSub1 lower).bind fun x =>
            (Interval.new e.lower x).map fun ni => btreeInsert ni add
        else some add) = some add2 := by
      by_cases hg : e.lower < lower ∧ e.upper ≥ lower
      · rw [if_pos hg]
        unfold checkedSub1
        rw [if_neg (by omega), Option.some_bind]
        unfold Interval.new
        rw [if_neg (by omega), Option.map_some']
        exact ⟨_, rfl⟩
      · rw [if_neg hg]
        exact ⟨add, rfl⟩
    obtain ⟨add2, hL⟩ := hL
    rw [hL, Option.some_bind]
    have hR : ∃ add3, (if e.upper > upper ∧ e.lower ≤ upper then
          (checkedAdd1 MAXV upper).bind fun x =>
            (Interval.new x e.upper).map fun ni => btreeInsert ni add2
        else some add2) = some add3 := by
      by_cases hg : e.upper > upper ∧ e.lower ≤ upper
      · rw [if_pos hg]
        unfold checkedAdd1
        rw [if_neg (by omega), Option.some_bind]
        unfold Interval.new
        rw [if_neg (by omega), Option.map_some']
        exact ⟨_, rfl⟩
      · rw [if_neg hg]
        exact ⟨add2, rfl⟩
    obtain ⟨add3, hR⟩ := hR
    rw [hR, Option.some_bind]
    exact ih _ (fun e2 he2 => hwf e2 (List.mem_cons_of_mem e he2))

/-- `remove_interval` never fails given a well-formed argument range and
member intervals that fit the id type, whatever their arrangement. -/
theorem Intervals.remove_interval_nopanic {MAXV lower upper : Nat}
    {l : List Interval} (hlu : lower ≤ upper)
    (hwf : ∀ e ∈ l, e.upper ≤ MAXV) :
    ∃ t, Intervals.remove_interval MAXV ⟨l⟩ lower upper = some t := by
  unfold Intervals.remove_interval
  have h1 : Interval.new lower upper = some ⟨lower, upper⟩ := by
    unfold Interval.new
    rw [if_neg (by omega)]
  have h2 : Interval.new 0 lower = some ⟨0, lower⟩ := by
    unfold Interval.new
    rw [if_neg (by omega)]
  rw [h1, Option.some_bind, h2, Option.some_bind]
  have hitr : (⟨lower, upper⟩ : Interval) = ⟨lower, upper⟩ := rfl
  obtain ⟨acc2, hacc⟩ := @scan_nopanic MAXV lower upper
    (rangeGE l ⟨0, lower⟩) ([], [])
    (fun e he => hwf e (List.mem_of_mem_filter he))
  rw [hacc, Option.some_bind]
  exact ⟨_, rfl⟩

/-- Removing a block of elements that sits between `KL` and `KR` with
successive `btreeRemove` calls leaves exactly `KL ++ KR`. -/
theorem foldRemove_block (KL KR : List Interval) :
    ∀ (M : List Interval), (∀ m ∈ M, m ∉ KL) →
    M.foldl (fun acc i => btreeRemove i acc) (KL ++ (M ++ KR)) = KL ++ KR := by
  intro M
  induction M with
  | nil =>
    intro _
    simp
  | cons m M2 ih =>
    intro hnot
    rw [List.foldl_cons]
    have h1 : btreeRemove m (KL ++ (m :: M2 ++ KR)) = KL ++ (M2 ++ KR) := by
      have := btreeRemove_spec m KL (M2 ++ KR) (hnot m (List.mem_cons_self m M2))
      simpa using this
    rw [h1]
    exact ih (fun x hx => hnot x (List.mem_cons_of_mem m hx))

/-- Inserting an ascending block of elements that all come after `KL` and
before `KR` with successive `btreeInsert` calls produces `KL ++ xs ++ KR`. -/
theorem foldInsert_block :
    ∀ (xs KL KR : List Interval),
    List.Pairwise (fun a b => Interval.cmp b a = .gt) xs →
    (∀ x ∈ xs, ∀ k ∈ KL, Interval.cmp x k = .gt) →
    (∀ x ∈ xs, ∀ k ∈ KR, Interval.cmp x k = .lt) →
    xs.foldl (fun acc i => btreeInsert i acc) (KL ++ KR) = KL ++ (xs ++ KR) := by
  intro xs
  induction xs with
  | nil =>
    intro KL KR _ _ _
    simp
  | cons x xs2 ih =>
    intro KL KR hpw hgt hlt
    rw [List.foldl_cons]
    have h1 : btreeInsert x (KL ++ KR) = KL ++ x :: KR := by
      refine btreeInsert_spec _ _ _ ?_ ?_
      · intro k hk
        exact hgt x (List.mem_cons_self x xs2) k hk
      · intro k hk
        exact hlt x (List.mem_cons_self x xs2) k (List.mem_of_mem_head? hk)
    rw [h1]
    have h2 : KL ++ x :: KR = (KL ++ [x]) ++ KR := by simp
    rw [h2]
    have hgt2 : ∀ y ∈ xs2, ∀ k ∈ KL ++ [x], Interval.cmp y k = .gt := by
      intro y hy k hk
      rcases List.mem_append.mp hk with hk | hk
      · exact hgt y (List.mem_cons_of_mem x hy) k hk
      · rcases List.mem_singleton.mp hk with rfl
        exact (List.pairwise_cons.mp hpw).1 y hy
    have hlt2 : ∀ y ∈ xs2, ∀ k ∈ KR, Interval.cmp y k = .lt := by
      intro y hy k hk
      exact hlt y (List.mem_cons_of_mem x hy) k hk
    rw [ih (KL ++ [x]) KR (List.pairwise_cons.mp hpw).2 hgt2 hlt2]
    simp

theorem rangeGE_probe_mem {l : List Interval} {lower : Nat} {e : Interval}
    (he : e ∈ rangeGE l ⟨0, lower⟩) : lower ≤ e.upper := by
  have h2 := (mem_rangeGE he).2
  rw [Ne, Interval.cmp_eq_lt_iff] at h2
  simp only at h2
  omega

theorem rangeLT_probe_mem {l : List Interval} {lower : Nat} {e : Interval}
    (he : e ∈ rangeLT l ⟨0, lower⟩) : e.upper < lower := by
  have h2 := (mem_rangeLT he).2
  rw [Interval.cmp_eq_lt_iff] at h2
  simp only at h2
  omega

/-- Pairwise structure inside the at-most-two remainders of one candidate. -/
theorem addsOf_pairwise {lower upper : Nat} {e : Interval}
    {R : Interval → Interval → Prop}
    (hLR : e.lower < lower → lower ≤ e.upper → upper < e.upper →
      e.lower ≤ upper → R ⟨e.lower, lower - 1⟩ ⟨upper + 1, e.upper⟩) :
    List.Pairwise R (addsOf lower upper e) := by
  unfold addsOf
  by_cases h1 : e.lower < lower ∧ e.upper ≥ lower
  · rw [if_pos h1]
    by_cases h2 : e.upper > upper ∧ e.lower ≤ upper
    · rw [if_pos h2]
      refine List.pairwise_cons.mpr ⟨?_, ?_⟩
      · intro b hb
        rcases List.mem_singleton.mp (by simpa using hb) with rfl
        exact hLR h1.1 h1.2 h2.1 h2.2
      · simp
    · rw [if_neg h2]
      simp
  · rw [if_neg h1]
    by_cases h2 : e.upper > upper ∧ e.lower ≤ upper
    · rw [if_pos h2]
      simp
    · rw [if_neg h2]
      simp

/-- Remainders produced by distinct candidates of a separated candidate list
are separated and strictly ascending in `Interval.cmp`. -/
theorem adds_cross {LO HI lower upper : Nat} {l : List Interval}
    (h : Inv LO HI l) (hlu : lower ≤ upper) :
    List.Pairwise (fun e1 e2 => ∀ x1 ∈ addsOf lower upper e1,
      ∀ x2 ∈ addsOf lower upper e2,
        sepRel x1 x2 ∧ Interval.cmp x2 x1 = .gt)
      (rangeGE l ⟨0, lower⟩) := by
  have hCandInv : Inv LO HI (rangeGE l ⟨0, lower⟩) :=
    h.sublist (List.filter_sublist l)
  refine hCandInv.1.imp_of_mem ?_
  intro e1 e2 he1 he2 hsep x1 hx1 x2 hx2
  have hc1 := rangeGE_probe_mem he1
  have hw1 := hCandInv.2 e1 he1
  have hw2 := hCandInv.2 e2 he2
  unfold Interval.wf at hw1 hw2
  unfold sepRel at hsep ⊢
  rcases mem_addsOf hx2 with ⟨hg1, hg2, rfl⟩ | ⟨hg1, hg2, rfl⟩
  · exact absurd rfl (by omega : ¬(x1 = x1))
  · rcases mem_addsOf hx1 with ⟨hf1, hf2, rfl⟩ | ⟨hf1, hf2, rfl⟩
    · constructor
      · simp only
        omega
      · rw [Interval.cmp_eq_gt_iff]
        left
        simp only
        omega
    · exact absurd rfl (by omega : ¬(e2 = e2))

/-- Pairwise structure across all remainders of a candidate list. -/
theorem addsAll_pairwise {lower upper : Nat} {R : Interval → Interval → Prop} :
    ∀ {cs : List Interval},
    List.Pairwise (fun e1 e2 => ∀ x1 ∈ addsOf lower upper e1,
      ∀ x2 ∈ addsOf lower upper e2, R x1 x2) cs →
    (∀ e ∈ cs, List.Pairwise R (addsOf lower upper e)) →
    List.Pairwise R (addsAll lower upper cs) := by
  intro cs
  induction cs with
  | nil =>
    intro _ _
    exact List.Pairwise.nil
  | cons e t ih =>
    intro hpw hin
    rw [addsAll_cons]
    rw [List.pairwise_append]
    refine ⟨hin e (List.mem_cons_self e t),
      ih (List.pairwise_cons.mp hpw).2
        (fun e2 he2 => hin e2 (List.mem_cons_of_mem e he2)), ?_⟩
    intro x1 hx1 x2 hx2
    obtain ⟨e2, he2, hx2e⟩ := mem_addsAll hx2
    exact (List.pairwise_cons.mp hpw).1 e2 he2 x1 hx1 x2 hx2e

/-- `remove_interval` on a well-formed set succeeds and preserves the
interval-set invariant: the survivors are the untouched intervals plus the
clipped remainders of the overlapped ones. -/
theorem Intervals.remove_interval_spec {LO HI MAXV lower upper : Nat}
    {l : List Interval} (h : Inv LO HI l) (hlu : lower ≤ upper)
    (hHI : HI ≤ MAXV) :
    ∃ t, Intervals.remove_interval MAXV ⟨l⟩ lower upper = some t ∧
      Inv LO HI t.intervals := by
  have hsplit : rangeLT l ⟨0, lower⟩ ++ rangeGE l ⟨0, lower⟩ = l :=
    rangeLT_append_rangeGE h _
  have hCandInv : Inv LO HI (rangeGE l ⟨0, lower⟩) :=
    h.sublist (List.filter_sublist l)
  have hKLInv : Inv LO HI (rangeLT l ⟨0, lower⟩) :=
    h.sublist (List.filter_sublist l)
  have hKLC : ∀ a ∈ rangeLT l ⟨0, lower⟩, ∀ b ∈ rangeGE l ⟨0, lower⟩,
      sepRel a b := by
    have hl2 : List.Pairwise sepRel
        (rangeLT l ⟨0, lower⟩ ++ rangeGE l ⟨0, lower⟩) := by
      rw [hsplit]
      exact h.1
    exact (List.pairwise_append.mp hl2).2.2
  have hMsplit :
      (rangeGE l ⟨0, lower⟩).filter (fun e => decide (e.lower ≤ upper)) ++
      (rangeGE l ⟨0, lower⟩).filter (fun e => !(decide (e.lower ≤ upper)))
        = rangeGE l ⟨0, lower⟩ := by
    apply filter_split_pairwise
    refine hCandInv.1.imp_of_mem ?_
    intro a b ha hb hsep hbp
    have hwa := hCandInv.2 a ha
    unfold Interval.wf at hwa
    unfold sepRel at hsep
    simp only [decide_eq_true_eq] at hbp ⊢
    omega
  have hMmem : ∀ e ∈ (rangeGE l ⟨0, lower⟩).filter
      (fun e => decide (e.lower ≤ upper)), e.lower ≤ upper := by
    intro e he
    have := (List.mem_filter.mp he).2
    simpa using this
  have hKRmem : ∀ e ∈ (rangeGE l ⟨0, lower⟩).filter
      (fun e => !(decide (e.lower ≤ upper))), upper < e.lower := by
    intro e he
    have := (List.mem_filter.mp he).2
    simp only [Bool.not_eq_true', decide_eq_false_iff_not, not_le] at this
    exact this
  have hMKR : ∀ a ∈ (rangeGE l ⟨0, lower⟩).filter
        (fun e => decide (e.lower ≤ upper)),
      ∀ b ∈ (rangeGE l ⟨0, lower⟩).filter
        (fun e => !(decide (e.lower ≤ upper))), sepRel a b := by
    have hl2 : List.Pairwise sepRel
        ((rangeGE l ⟨0, lower⟩).filter (fun e => decide (e.lower ≤ upper)) ++
         (rangeGE l ⟨0, lower⟩).filter (fun e => !(decide (e.lower ≤ upper)))) := by
      rw [hMsplit]
      exact hCandInv.1
    exact (List.pairwise_append.mp hl2).2.2
  have hfiltereq : (rangeGE l ⟨0, lower⟩).filter (removeCond lower upper)
      = (rangeGE l ⟨0, lower⟩).filter (fun e => decide (e.lower ≤ upper)) := by
    apply List.filter_congr
    intro e he
    have hce := rangeGE_probe_mem he
    unfold removeCond
    cases hde : decide (e.lower ≤ upper) with
    | true =>
      simp only [decide_eq_true_eq] at hde
      have hov : (⟨lower, upper⟩ : Interval).overlaps e = true := by
        rw [Interval.overlaps_iff]
        exact ⟨hce, hde⟩
      rw [hov]
      rfl
    | false =>
      simp only [decide_eq_false_iff_not, not_le] at hde
      simp only [Interval.overlaps, Interval.contains_value]
      simp only [Bool.or_eq_false_iff, Bool.and_eq_false_iff,
        decide_eq_false_iff_not, ge_iff_le, not_le]
      omega
  have hacross := @adds_cross LO HI lower upper l h hlu
  have hscan := @scan_general MAXV lower upper hlu (rangeGE l ⟨0, lower⟩) [] []
    (fun e he => by
      have hw := hCandInv.2 e he
      unfold Interval.wf at hw
      omega)
    hCandInv.1
    (fun e he => rangeGE_probe_mem he)
    (fun e _ r hr => absurd hr (List.not_mem_nil r))
    (fun e _ x _ a ha => absurd ha (List.not_mem_nil a))
    (hacross.imp (fun hx x1 hx1 x2 hx2 => (hx x1 hx1 x2 hx2).2))
  simp only [List.nil_append] at hscan
  unfold Intervals.remove_interval
  have h1 : Interval.new lower upper = some ⟨lower, upper⟩ := by
    unfold Interval.new
    rw [if_neg (by omega)]
  have h2 : Interval.new 0 lower = some ⟨0, lower⟩ := by
    unfold Interval.new
    rw [if_neg (by omega)]
  rw [h1, Option.some_bind, h2, Option.some_bind]
  show ∃ t, (removeIntervalScan MAXV lower upper ⟨lower, upper⟩
      (rangeGE l ⟨0, lower⟩) ([], [])).bind _ = some t ∧ _
  rw [hscan, Option.some_bind]
  refine ⟨_, rfl, ?_⟩
  show Inv LO HI ((addsAll lower upper (rangeGE l ⟨0, lower⟩)).foldl
      (fun a i => btreeInsert i a)
      (((rangeGE l ⟨0, lower⟩).filter (removeCond lower upper)).foldl
        (fun a i => btreeRemove i a) l))
  rw [hfiltereq]
  have hldecomp : rangeLT l ⟨0, lower⟩ ++
      ((rangeGE l ⟨0, lower⟩).filter (fun e => decide (e.lower ≤ upper)) ++
       (rangeGE l ⟨0, lower⟩).filter (fun e => !(decide (e.lower ≤ upper))))
      = l := by
    rw [hMsplit, hsplit]
  have hnotKL : ∀ m ∈ (rangeGE l ⟨0, lower⟩).filter
      (fun e => decide (e.lower ≤ upper)), m ∉ rangeLT l ⟨0, lower⟩ := by
    intro m hm hmKL
    have hnd := h.nodup
    rw [← hsplit] at hnd
    rcases List.nodup_append.mp hnd with ⟨-, -, hdisj⟩
    exact hdisj hmKL (List.mem_of_mem_filter hm)
  have hremfold := foldRemove_block (rangeLT l ⟨0, lower⟩)
    ((rangeGE l ⟨0, lower⟩).filter (fun e => !(decide (e.lower ≤ upper))))
    ((rangeGE l ⟨0, lower⟩).filter (fun e => decide (e.lower ≤ upper)))
    hnotKL
  rw [hldecomp] at hremfold
  rw [hremfold]
  have hwithin : ∀ e ∈ rangeGE l ⟨0, lower⟩,
      List.Pairwise (fun a b => Interval.cmp b a = .gt ∧ sepRel a b)
        (addsOf lower upper e) := by
    intro e he
    refine addsOf_pairwise ?_
    intro hg1 hg2 hg3 hg4
    constructor
    · rw [Interval.cmp_eq_gt_iff]
      left
      simp only
      omega
    · unfold sepRel
      simp only
      omega
  have hinsfold : (addsAll lower upper (rangeGE l ⟨0, lower⟩)).foldl
        (fun a i => btreeInsert i a)
        (rangeLT l ⟨0, lower⟩ ++
          (rangeGE l ⟨0, lower⟩).filter (fun e => !(decide (e.lower ≤ upper))))
      = rangeLT l ⟨0, lower⟩ ++
        (addsAll lower upper (rangeGE l ⟨0, lower⟩) ++
          (rangeGE l ⟨0, lower⟩).filter (fun e => !(decide (e.lower ≤ upper)))) := by
    refine foldInsert_block _ _ _ ?_ ?_ ?_
    · refine addsAll_pairwise
        (hacross.imp (fun hx x1 hx1 x2 hx2 => (hx x1 hx1 x2 hx2).2)) ?_
      intro e he
      exact ((hwithin e he).imp (fun hx => hx.1))
    · intro x hx k hk
      obtain ⟨e, he, hxe⟩ := mem_addsAll hx
      have hsepke := hKLC k hk e he
      have hku := rangeLT_probe_mem hk
      have hwk := hKLInv.2 k hk
      have hwe := hCandInv.2 e he
      unfold Interval.wf at hwk hwe
      unfold sepRel at hsepke
      rcases mem_addsOf hxe with ⟨hg1, hg2, rfl⟩ | ⟨hg1, hg2, rfl⟩
      · rw [Interval.cmp_eq_gt_iff]
        left
        simp only
        omega
      · rw [Interval.cmp_eq_gt_iff]
        left
        simp only
        omega
    · intro x hx k hk
      obtain ⟨e, he, hxe⟩ := mem_addsAll hx
      have hkl := hKRmem k hk
      have hwe := hCandInv.2 e he
      unfold Interval.wf at hwe
      rcases mem_addsOf hxe with ⟨hg1, hg2, rfl⟩ | ⟨hg1, hg2, rfl⟩
      · rw [Interval.cmp_eq_lt_iff]
        left
        simp only
        omega
      · have heM : e ∈ (rangeGE l ⟨0, lower⟩).filter
            (fun e => decide (e.lower ≤ upper)) :=
          List.mem_filter.mpr ⟨he, by simpa using hg2⟩
        have hsepek := hMKR e heM k hk
        unfold sepRel at hsepek
        rw [Interval.cmp_eq_lt_iff]
        left
        simp only
        omega
  rw [hinsfold]
  rw [Inv.append_iff]
  refine ⟨hKLInv, ?_, ?_⟩
  · rw [Inv.append_iff]
    refine ⟨⟨?_, ?_⟩, hCandInv.sublist (List.filter_sublist _), ?_⟩
    · refine addsAll_pairwise
        (hacross.imp (fun hx x1 hx1 x2 hx2 => (hx x1 hx1 x2 hx2).1)) ?_
      intro e he
      exact ((hwithin e he).imp (fun hx => hx.2))
    · intro x hx
      obtain ⟨e, he, hxe⟩ := mem_addsAll hx
      have hwe := hCandInv.2 e he
      unfold Interval.wf at hwe ⊢
      rcases mem_addsOf hxe with ⟨hg1, hg2, rfl⟩ | ⟨hg1, hg2, rfl⟩
      · simp only
        omega
      · simp only
        omega
    · intro x hx k hk
      obtain ⟨e, he, hxe⟩ := mem_addsAll hx
      have hkl := hKRmem k hk
      have hwe := hCandInv.2 e he
      unfold Interval.wf at hwe
      rcases mem_addsOf hxe with ⟨hg1, hg2, rfl⟩ | ⟨hg1, hg2, rfl⟩
      · unfold sepRel
        simp only
        omega
      · have heM : e ∈ (rangeGE l ⟨0, lower⟩).filter
            (fun e => decide (e.lower ≤ upper)) :=
          List.mem_filter.mpr ⟨he, by simpa using hg2⟩
        have hsepek := hMKR e heM k hk
        unfold sepRel at hsepek ⊢
        simp only
        omega
  · intro a ha b hb
    have hau := rangeLT_probe_mem ha
    have hwa := hKLInv.2 a ha
    unfold Interval.wf at hwa
    rcases List.mem_append.mp hb with hb | hb
    · obtain ⟨e, he, hbe⟩ := mem_addsAll hb
      have hsepae := hKLC a ha e he
      unfold sepRel at hsepae ⊢
      rcases mem_addsOf hbe with ⟨hg1, hg2, rfl⟩ | ⟨hg1, hg2, rfl⟩
      · simp only
        omega
      · simp only
        omega
    · exact hKLC a ha b (List.mem_of_mem_filter hb)

/-- Wrap-around distance from the cursor to a target value inside
`[minv, maxv]`: the number of `increment_id` steps needed to reach it. -/
def cyclicDist (minv maxv c v : Nat) : Nat :=
  if c ≤ v then v - c else (maxv + 1 - c) + (v - minv)

/-- The delayed-reuse cursor scan succeeds whenever some free value exists
and the fuel exceeds its wrap-around distance from the cursor. -/
theorem allocateScan_succeeds {m : IdManager} {v : Nat} :
    ∀ (fuel cursor : Nat),
    Inv m.min_id m.max_id m.free_ids.intervals →
    (∃ e ∈ m.free_ids.intervals, e.contains_value v = true) →
    m.min_id ≤ cursor → cursor ≤ m.max_id →
    cyclicDist m.min_id m.max_id cursor v < fuel →
    ∃ r, allocateScan m fuel cursor = some r := by
  intro fuel
  induction fuel with
  | zero =>
    intro cursor _ _ _ _ hd
    omega
  | succ fuel ih =>
    intro cursor hinv hfree hc1 hc2 hd
    obtain ⟨e, he, hev⟩ := hfree
    have hvr : m.min_id ≤ v ∧ v ≤ m.max_id := by
      have hw := hinv.2 e he
      have := (Interval.contains_value_iff e v).mp hev
      unfold Interval.wf at hw
      omega
    unfold allocateScan
    by_cases hcf : ∃ C ∈ m.free_ids.intervals, C.contains_value cursor = true
    · obtain ⟨C, hCl, hCc⟩ := hcf
      obtain ⟨A, B, hAB⟩ := List.append_of_mem hCl
      have hrv : m.free_ids.remove_value cursor
          = some (true, ⟨(A ++ leftPiece C cursor) ++ (rightPiece C cursor ++ B)⟩) := by
        have := Intervals.remove_value_some (hAB ▸ hinv) hCc
        rw [← hAB] at this
        exact this
      rw [hrv, Option.some_bind, if_pos rfl]
      exact ⟨_, rfl⟩
    · have hnc : ∀ e2 ∈ m.free_ids.intervals, e2.contains_value cursor = false := by
        intro e2 he2
        cases hx : e2.contains_value cursor
        · rfl
        · exact absurd ⟨e2, he2, hx⟩ hcf
      have hrv : m.free_ids.remove_value cursor = some (false, m.free_ids) :=
        Intervals.remove_value_none hnc
      rw [hrv, Option.some_bind, if_neg (by simp)]
      have hvne : cursor ≠ v := by
        intro hvc
        exact absurd ⟨e, he, hvc ▸ hev⟩ hcf
      refine ih (m.increment_id cursor) hinv ⟨e, he, hev⟩ ?_ ?_ ?_
      · unfold IdManager.increment_id
        split_ifs with hx
        · omega
        · omega
      · unfold IdManager.increment_id
        split_ifs with hx
        · omega
        · omega
      · unfold cyclicDist at hd
        unfold IdManager.increment_id cyclicDist
        split_ifs at hd ⊢ <;> omega

/-! ### Per-operation invariant preservation -/

/-- `insert` always succeeds on a well-formed set and argument, preserves the
invariant, and leaves the set unchanged when it reports `false`. -/
theorem Intervals.insert_result_inv {LO HI MAXV : Nat} {l : List Interval}
    {i : Interval} (h : Inv LO HI l) (hiw : i.wf LO HI) (hHI : HI ≤ MAXV) :
    ∃ b t, Intervals.insert MAXV ⟨l⟩ i = some (b, t) ∧ Inv LO HI t.intervals ∧
      (b = false → t.intervals = l) := by
  by_cases hov : ∃ e ∈ l, e.overlaps i = true
  · exact ⟨false, ⟨l⟩, Intervals.insert_overlap_eq h hiw.1 hov, h, fun _ => rfl⟩
  · have hno : ∀ e ∈ l, e.overlaps i = false := by
      intro e he
      cases hx : e.overlaps i
      · rfl
      · exact absurd ⟨e, he, hx⟩ hov
    refine ⟨true, ⟨insertMerged MAXV l i⟩,
      Intervals.insert_no_overlap_eq h hiw.1 hno,
      insertMerged_inv h hiw hHI hno, ?_⟩
    intro hfalse
    cases hfalse

/-- `remove_value` always succeeds on a well-formed set and preserves the
invariant. -/
theorem Intervals.remove_value_result_inv {LO HI : Nat} {l : List Interval}
    (h : Inv LO HI l) (v : Nat) :
    ∃ b t, Intervals.remove_value ⟨l⟩ v = some (b, t) ∧ Inv LO HI t.intervals := by
  by_cases hc : ∃ C ∈ l, C.contains_value v = true
  · obtain ⟨C, hCl, hCc⟩ := hc
    obtain ⟨A, B, rfl⟩ := List.append_of_mem hCl
    exact ⟨true, _, Intervals.remove_value_some h hCc, removeValuePieces_inv h hCc⟩
  · have hnc : ∀ e ∈ l, e.contains_value v = false := by
      intro e he
      cases hx : e.contains_value v
      · rfl
      · exact absurd ⟨e, he, hx⟩ hc
    exact ⟨false, ⟨l⟩, Intervals.remove_value_none hnc, h⟩

/-- `remove_first_value` either reports the empty-set panic or succeeds with
the invariant preserved. -/
theorem Intervals.remove_first_value_result_inv {LO HI : Nat} {l : List Interval}
    (h : Inv LO HI l) :
    Intervals.remove_first_value ⟨l⟩ = none ∨
    ∃ v t, Intervals.remove_first_value ⟨l⟩ = some (v, t) ∧
      Inv LO HI t.intervals := by
  cases l with
  | nil =>
    left
    rfl
  | cons C rest =>
    right
    refine ⟨C.lower, ⟨rightPiece C C.lower ++ rest⟩,
      Intervals.remove_first_value_eq h, ?_⟩
    have hCc : C.contains_value C.lower = true := by
      rw [Interval.contains_value_iff]
      have := (h.2 C (List.mem_cons_self C rest)).1
      omega
    have hpieces := removeValuePieces_inv (A := []) (B := rest)
      (v := C.lower) (C := C) (by simpa using h) hCc
    have hlp : leftPiece C C.lower = [] := by
      unfold leftPiece
      rw [if_neg (by omega)]
    rw [hlp] at hpieces
    simpa using hpieces

/-- `remove_first_interval` either reports the empty-set panic or succeeds
with the invariant preserved. -/
theorem Intervals.remove_first_interval_result_inv {LO HI : Nat}
    {l : List Interval} (h : Inv LO HI l) :
    Intervals.remove_first_interval ⟨l⟩ = none ∨
    ∃ i t, Intervals.remove_first_interval ⟨l⟩ = some (i, t) ∧
      Inv LO HI t.intervals := by
  cases l with
  | nil =>
    left
    rfl
  | cons C rest =>
    right
    exact ⟨C, ⟨rest⟩, Intervals.remove_first_interval_eq C rest,
      h.sublist (List.sublist_cons_self C rest)⟩

/-! ### Operation sequences on an `Intervals` set -/

/-- One public mutation of `Intervals`. -/
inductive SetOp where
  | insertValue (v : Nat)
  | insertInterval (lower upper : Nat)
  | removeValue (v : Nat)
  | removeFirstValue
  | removeFirstInterval
  | removeInterval (lower upper : Nat)
deriving DecidableEq

/-- The typing constraint Rust's `T` enforces on an operation's arguments:
every id value fits the id type (`≤ T::MAX`). -/
def SetOp.validArg (MAXV : Nat) : SetOp → Prop
  | .insertValue v => v ≤ MAXV
  | .insertInterval lower upper => lower ≤ MAXV ∧ upper ≤ MAXV
  | .removeValue v => v ≤ MAXV
  | .removeFirstValue => True
  | .removeFirstInterval => True
  | .removeInterval lower upper => lower ≤ MAXV ∧ upper ≤ MAXV

/-- Apply one operation, keeping only the resulting set; `none` is a panic
or the empty-set error. -/
def SetOp.apply (MAXV : Nat) (s : Intervals) : SetOp → Option Intervals
  | .insertValue v => (s.insert_value MAXV v).map fun r => r.2
  | .insertInterval lower upper =>
    (s.insert_interval MAXV lower upper).map fun r => r.2
  | .removeValue v => (s.remove_value v).map fun r => r.2
  | .removeFirstValue => s.remove_first_value.map fun r => r.2
  | .removeFirstInterval => s.remove_first_interval.map fun r => r.2
  | .removeInterval lower upper => s.remove_interval MAXV lower upper

/-- Run one operation: a failing operation leaves the set as it was. -/
def SetOp.run (MAXV : Nat) (s : Intervals) (op : SetOp) : Intervals :=
  match op.apply MAXV s with
  | some t => t
  | none => s

/-- Run a whole operation sequence. -/
def runSetOps (MAXV : Nat) (s : Intervals) (ops : List SetOp) : Intervals :=
  ops.foldl (SetOp.run MAXV) s

/-- One operation with in-type arguments keeps the interval-set invariant. -/
theorem SetOp.run_inv {MAXV : Nat} {s : Intervals}
    (h : Inv 0 MAXV s.intervals) (op : SetOp) (hv : op.validArg MAXV) :
    Inv 0 MAXV (op.run MAXV s).intervals := by
  cases op with
  | insertValue v =>
    unfold SetOp.validArg at hv
    obtain ⟨b, t, heq, hinv, -⟩ := @Intervals.insert_result_inv 0 MAXV MAXV
      s.intervals (Interval.new_single_value_interval v) h
      (by unfold Interval.new_single_value_interval Interval.wf; simp; omega)
      (le_refl MAXV)
    have heq2 : Intervals.insert MAXV s (Interval.new_single_value_interval v)
        = some (b, t) := heq
    unfold SetOp.run SetOp.apply Intervals.insert_value
    simp only [heq2, Option.map_some']
    exact hinv
  | insertInterval lower upper =>
    unfold SetOp.validArg at hv
    unfold SetOp.run SetOp.apply Intervals.insert_interval
    by_cases hlu : lower ≤ upper
    · obtain ⟨b, t, heq, hinv, -⟩ := @Intervals.insert_result_inv 0 MAXV MAXV
        s.intervals ⟨lower, upper⟩ h
        (by unfold Interval.wf; simp; omega)
        (le_refl MAXV)
      have heq2 : Intervals.insert MAXV s ⟨lower, upper⟩ = some (b, t) := heq
      have hnew : Interval.new lower upper = some ⟨lower, upper⟩ := by
        unfold Interval.new
        rw [if_neg (by omega)]
      simp only [hnew, Option.some_bind, heq2, Option.map_some']
      exact hinv
    · have hnew : Interval.new lower upper = none := by
        unfold Interval.new
        rw [if_pos (by omega)]
      simp only [hnew, Option.none_bind, Option.map_none']
      exact h
  | removeValue v =>
    obtain ⟨b, t, heq, hinv⟩ := Intervals.remove_value_result_inv h v
    have heq2 : Intervals.remove_value s v = some (b, t) := heq
    unfold SetOp.run SetOp.apply
    simp only [heq2, Option.map_some']
    exact hinv
  | removeFirstValue =>
    unfold SetOp.run SetOp.apply
    rcases Intervals.remove_first_value_result_inv h with heq | ⟨v, t, heq, hinv⟩
    · have heq2 : Intervals.remove_first_value s = none := heq
      simp only [heq2, Option.map_none']
      exact h
    · have heq2 : Intervals.remove_first_value s = some (v, t) := heq
      simp only [heq2, Option.map_some']
      exact hinv
  | removeFirstInterval =>
    unfold SetOp.run SetOp.apply
    rcases Intervals.remove_first_interval_result_inv h with heq | ⟨i, t, heq, hinv⟩
    · have heq2 : Intervals.remove_first_interval s = none := heq
      simp only [heq2, Option.map_none']
      exact h
    · have heq2 : Intervals.remove_first_interval s = some (i, t) := heq
      simp only [heq2, Option.map_some']
      exact hinv
  | removeInterval lower upper =>
    unfold SetOp.run SetOp.apply
    by_cases hlu : lower ≤ upper
    · obtain ⟨t, heq, hinv⟩ := Intervals.remove_interval_spec h hlu (le_refl MAXV)
      have heq2 : Intervals.remove_interval MAXV s lower upper = some t := heq
      simp only [heq2]
      exact hinv
    · have hnew : Interval.new lower upper = none := by
        unfold Interval.new
        rw [if_pos (by omega)]
      have heq2 : Intervals.remove_interval MAXV s lower upper = none := by
        unfold Intervals.remove_interval
        rw [hnew]
        rfl
      simp only [heq2]
      exact h

/-- A whole operation sequence with in-type arguments keeps the invariant. -/
theorem runSetOps_inv {MAXV : Nat} {s : Intervals}
    (h : Inv 0 MAXV s.intervals) :
    ∀ {ops : List SetOp}, (∀ op ∈ ops, op.validArg MAXV) →
    Inv 0 MAXV (runSetOps MAXV s ops).intervals := by
  intro ops
  induction ops generalizing s with
  | nil =>
    intro _
    exact h
  | cons op rest ih =>
    intro hv
    unfold runSetOps
    rw [List.foldl_cons]
    exact ih (SetOp.run_inv h op (hv op (List.mem_cons_self op rest)))
      (fun o ho => hv o (List.mem_cons_of_mem op ho))

/-! ### Manager-level invariant preservation -/

/-- A successful `allocate` keeps the manager's bounds and either keeps the
cursor or steps it one past the returned id. -/
theorem IdManager.allocate_fields {m : IdManager} {id : Nat} {m2 : IdManager}
    (heq : m.allocate = some (id, m2)) :
    m2.min_id = m.min_id ∧ m2.max_id = m.max_id ∧
    m2.reuse_policy = m.reuse_policy ∧
    (m2.next_to_allocate = m.next_to_allocate ∨
      m2.next_to_allocate = m.increment_id id) := by
  unfold IdManager.allocate at heq
  by_cases hemp : m.free_ids.is_empty = true
  · rw [if_pos hemp] at heq
    cases heq
  · rw [if_neg hemp] at heq
    cases hpol : m.reuse_policy with
    | ReuseFast =>
      rw [hpol] at heq
      cases hrf : m.free_ids.remove_first_value with
      | none =>
        rw [hrf] at heq
        cases heq
      | some r =>
        rw [hrf, Option.map_some'] at heq
        simp only [Option.some_inj, Prod.mk.injEq] at heq
        obtain ⟨-, h2⟩ := heq
        rw [← h2]
        exact ⟨rfl, rfl, rfl, Or.inl rfl⟩
    | ReuseSlow =>
      rw [hpol] at heq
      obtain ⟨-, hm2⟩ := allocateScan_characterize heq
      rw [hm2]
      exact ⟨rfl, rfl, hpol, Or.inr rfl⟩

/-- A successful `allocate` returns an id inside the manager's bounds. -/
theorem IdManager.allocate_id_in_range {MAXV : Nat} {m : IdManager} {id : Nat}
    {m2 : IdManager} (hm : ManagerInv MAXV m)
    (heq : m.allocate = some (id, m2)) :
    m.min_id ≤ id ∧ id ≤ m.max_id := by
  obtain ⟨A, C, B, hl, hCc, -⟩ := IdManager.allocate_characterize hm heq
  have hInv : Inv m.min_id m.max_id (A ++ C :: B) := by
    rw [← hl]
    exact hm.1
  have hCw := hInv.2 C (by simp)
  have := (Interval.contains_value_iff C id).mp hCc
  unfold Interval.wf at hCw
  omega

/-- A successful `allocate` preserves the manager invariant. -/
theorem IdManager.allocate_preserves {MAXV : Nat} {m : IdManager} {id : Nat}
    {m2 : IdManager} (hm : ManagerInv MAXV m)
    (heq : m.allocate = some (id, m2)) :
    ManagerInv MAXV m2 ∧ m2.min_id = m.min_id ∧ m2.max_id = m.max_id := by
  obtain ⟨A, C, B, hl, hCc, hfree⟩ := IdManager.allocate_characterize hm heq
  obtain ⟨hmin, hmax, -, hnext⟩ := IdManager.allocate_fields heq
  obtain ⟨hid1, hid2⟩ := IdManager.allocate_id_in_range hm heq
  have hInv : Inv m.min_id m.max_id (A ++ C :: B) := by
    rw [← hl]
    exact hm.1
  have hpieces := removeValuePieces_inv hInv hCc
  refine ⟨⟨?_, ?_, ?_, ?_, ?_⟩, hmin, hmax⟩
  · rw [hfree, hmin, hmax]
    exact hpieces
  · rw [hmin]
    rcases hnext with hnx | hnx
    · rw [hnx]
      exact hm.2.1
    · rw [hnx]
      unfold IdManager.increment_id
      split_ifs with hx
      · exact le_refl _
      · have := hm.2.2.2.1
        omega
  · rw [hmax]
    rcases hnext with hnx | hnx
    · rw [hnx]
      exact hm.2.2.1
    · rw [hnx]
      unfold IdManager.increment_id
      split_ifs with hx
      · exact hm.2.2.2.1
      · omega
  · rw [hmin, hmax]
    exact hm.2.2.2.1
  · rw [hmax]
    exact hm.2.2.2.2

/-- A successful `free` of an in-range id preserves the manager invariant. -/
theorem IdManager.free_preserves {MAXV : Nat} {m : IdManager} {id : Nat}
    {m2 : IdManager} (hm : ManagerInv MAXV m)
    (hid1 : m.min_id ≤ id) (hid2 : id ≤ m.max_id)
    (heq : IdManager.free MAXV m id = some m2) :
    ManagerInv MAXV m2 ∧ m2.min_id = m.min_id ∧ m2.max_id = m.max_id := by
  unfold IdManager.free at heq
  obtain ⟨b, t, hins, hinv, -⟩ := @Intervals.insert_result_inv m.min_id m.max_id
    MAXV m.free_ids.intervals (Interval.new_single_value_interval id) hm.1
    (by
      unfold Interval.new_single_value_interval Interval.wf
      exact ⟨le_refl id, hid1, hid2⟩)
    hm.2.2.2.2
  have hins2 : m.free_ids.insert_value MAXV id = some (b, t) := hins
  rw [hins2, Option.some_bind] at heq
  cases b with
  | false =>
    rw [if_neg (by simp)] at heq
    cases heq
  | true =>
    rw [if_pos rfl] at heq
    rw [Option.some_inj] at heq
    rw [← heq]
    exact ⟨⟨hinv, hm.2.1, hm.2.2.1, hm.2.2.2.1, hm.2.2.2.2⟩, rfl, rfl⟩

/-- A successful `mark_value_as_used` preserves the manager invariant. -/
theorem IdManager.mark_value_preserves {MAXV : Nat} {m : IdManager} {id : Nat}
    {m2 : IdManager} (hm : ManagerInv MAXV m)
    (heq : m.mark_value_as_used id = some m2) :
    ManagerInv MAXV m2 ∧ m2.min_id = m.min_id ∧ m2.max_id = m.max_id := by
  unfold IdManager.mark_value_as_used at heq
  by_cases hg : id < m.min_id ∧ id > m.max_id
  · rw [if_pos hg] at heq
    cases heq
  · rw [if_neg hg] at heq
    obtain ⟨b, t, hrv, hinv⟩ := Intervals.remove_value_result_inv hm.1 id
    have hrv2 : m.free_ids.remove_value id = some (b, t) := hrv
    rw [hrv2, Option.map_some', Option.some_inj] at heq
    rw [← heq]
    exact ⟨⟨hinv, hm.2.1, hm.2.2.1, hm.2.2.2.1, hm.2.2.2.2⟩, rfl, rfl⟩

/-- A successful `mark_interval_as_used` preserves the manager invariant. -/
theorem IdManager.mark_interval_preserves {MAXV : Nat} {m : IdManager}
    {lower upper : Nat} {m2 : IdManager} (hm : ManagerInv MAXV m)
    (heq : m.mark_interval_as_used MAXV lower upper = some m2) :
    ManagerInv MAXV m2 ∧ m2.min_id = m.min_id ∧ m2.max_id = m.max_id := by
  unfold IdManager.mark_interval_as_used at heq
  by_cases hg1 : lower < m.min_id ∧ lower > m.max_id
  · rw [if_pos hg1] at heq
    cases heq
  · rw [if_neg hg1] at heq
    by_cases hg2 : upper < m.min_id ∧ upper > m.max_id
    · rw [if_pos hg2] at heq
      cases heq
    · rw [if_neg hg2] at heq
      by_cases hlu : lower ≤ upper
      · obtain ⟨t, hri, hinv⟩ :=
          Intervals.remove_interval_spec hm.1 hlu hm.2.2.2.2
        have hri2 : m.free_ids.remove_interval MAXV lower upper = some t := hri
        rw [hri2, Option.map_some', Option.some_inj] at heq
        rw [← heq]
        exact ⟨⟨hinv, hm.2.1, hm.2.2.1, hm.2.2.2.1, hm.2.2.2.2⟩, rfl, rfl⟩
      · have hri2 : m.free_ids.remove_interval MAXV lower upper = none := by
          unfold Intervals.remove_interval
          have hnew : Interval.new lower upper = none := by
            unfold Interval.new
            rw [if_pos (by omega)]
          rw [hnew]
          rfl
        rw [hri2] at heq
        cases heq

/-! ### Operation sequences on an `IdManager` -/

/-- One public mutation of `IdManager`. -/
inductive MgrOp where
  | alloc
  | free (id : Nat)
  | markValue (id : Nat)
  | markInterval (lower upper : Nat)
deriving DecidableEq

/-- Apply one manager operation, keeping the resulting manager; `none` is a
panic or reported error. -/
def MgrOp.apply (MAXV : Nat) (m : IdManager) : MgrOp → Option IdManager
  | .alloc => m.allocate.map fun r => r.2
  | .free id => m.free MAXV id
  | .markValue id => m.mark_value_as_used id
  | .markInterval lower upper => m.mark_interval_as_used MAXV lower upper

/-- Run one manager operation: a failing operation leaves the manager as it
was. -/
def MgrOp.run (MAXV : Nat) (m : IdManager) (op : MgrOp) : IdManager :=
  match op.apply MAXV m with
  | some m2 => m2
  | none => m

/-- Run a whole manager operation sequence. -/
def runMgrOps (MAXV : Nat) (m : IdManager) (ops : List MgrOp) : IdManager :=
  ops.foldl (MgrOp.run MAXV) m

/-- The restriction the amended invariant claim needs: `free` is only called
with ids inside the manager's fixed `[min_id, max_id]` range. -/
def MgrOp.freeInRange (m : IdManager) : MgrOp → Prop
  | .free id => m.min_id ≤ id ∧ id ≤ m.max_id
  | _ => True

/-- One manager operation (with `free` restricted to in-range ids) keeps the
manager invariant and the bounds. -/
theorem MgrOp.run_managerInv {MAXV : Nat} {m : IdManager}
    (hm : ManagerInv MAXV m) (op : MgrOp) (hv : op.freeInRange m) :
    ManagerInv MAXV (op.run MAXV m) ∧
    (op.run MAXV m).min_id = m.min_id ∧
    (op.run MAXV m).max_id = m.max_id := by
  cases op with
  | alloc =>
    unfold MgrOp.run MgrOp.apply
    dsimp only
    cases ha : m.allocate with
    | none =>
      exact ⟨hm, rfl, rfl⟩
    | some r =>
      obtain ⟨id, m2⟩ := r
      exact IdManager.allocate_preserves hm ha
  | free id =>
    unfold MgrOp.freeInRange at hv
    unfold MgrOp.run MgrOp.apply
    dsimp only
    cases ha : IdManager.free MAXV m id with
    | none =>
      exact ⟨hm, rfl, rfl⟩
    | some m2 =>
      exact IdManager.free_preserves hm hv.1 hv.2 ha
  | markValue id =>
    unfold MgrOp.run MgrOp.apply
    dsimp only
    cases ha : m.mark_value_as_used id with
    | none =>
      exact ⟨hm, rfl, rfl⟩
    | some m2 =>
      exact IdManager.mark_value_preserves hm ha
  | markInterval lower upper =>
    unfold MgrOp.run MgrOp.apply
    dsimp only
    cases ha : m.mark_interval_as_used MAXV lower upper with
    | none =>
      exact ⟨hm, rfl, rfl⟩
    | some m2 =>
      exact IdManager.mark_interval_preserves hm ha

/-- A whole manager operation sequence (with `free` restricted to in-range
ids) keeps the manager invariant, and the bounds never move. -/
theorem runMgrOps_managerInv {MAXV : Nat} :
    ∀ {ops : List MgrOp} {m : IdManager}, ManagerInv MAXV m →
    (∀ op ∈ ops, op.freeInRange m) →
    ManagerInv MAXV (runMgrOps MAXV m ops) ∧
    (runMgrOps MAXV m ops).min_id = m.min_id ∧
    (runMgrOps MAXV m ops).max_id = m.max_id := by
  intro ops
  induction ops with
  | nil =>
    intro m hm _
    exact ⟨hm, rfl, rfl⟩
  | cons op rest ih =>
    intro m hm hv
    unfold runMgrOps
    rw [List.foldl_cons]
    obtain ⟨hm1, hmin1, hmax1⟩ :=
      MgrOp.run_managerInv hm op (hv op (List.mem_cons_self op rest))
    obtain ⟨hm2, hmin2, hmax2⟩ := ih hm1 (by
      intro o ho
      have := hv o (List.mem_cons_of_mem op ho)
      cases o with
      | free id =>
        unfold MgrOp.freeInRange at this ⊢
        rw [hmin1, hmax1]
        exact this
      | alloc => trivial
      | markValue id => trivial
      | markInterval lower upper => trivial)
    unfold runMgrOps at hmin2 hmax2
    refine ⟨hm2, ?_, ?_⟩
    · rw [hmin2, hmin1]
    · rw [hmax2, hmax1]

/-- Repeated allocation, collecting the returned ids in order. -/
def allocN (m : IdManager) : Nat → Option (List Nat × IdManager)
  | 0 => some ([], m)
  | n + 1 =>
    m.allocate.bind fun r =>
      (allocN r.2 n).map fun t => (r.1 :: t.1, t.2)

/-- The ordering the spec's words describe for `Ord for Interval`:
lexicographic by `(lower, upper)` — compare lower bounds first and only on a
tie compare upper bounds. -/
def Interval.cmpSpec (a b : Interval) : Ordering :=
  match compare a.lower b.lower with
  | Ordering.eq => compare a.upper b.upper
  | o => o

instance (MAXV : Nat) (op : SetOp) : Decidable (op.validArg MAXV) := by
  cases op <;> (unfold SetOp.validArg; infer_instance)

instance (m : IdManager) (op : MgrOp) : Decidable (op.freeInRange m) := by
  cases op <;> (unfold MgrOp.freeInRange; infer_instance)

/-! ### The claims -/

/-- C1: the spec says `mark_value_as_used`/`mark_interval_as_used` fail with
an out-of-range error when the argument falls outside `[min_id, max_id]`,
leaving the free set unchanged.  The code's guard `id < min_id && id > max_id`
is unsatisfiable for `min_id ≤ max_id`, so out-of-range arguments pass
unchecked: on the manager with bounds `[10, 50]` and free set `[10, 50]`,
marking the out-of-range value `60` succeeds without an error, and marking
the interval `[40, 60]` that reaches past `max_id` succeeds and mutates the
free set to `[10, 39]` instead of failing. -/
theorem claim_C1_mark_out_of_range_not_rejected :
    ManagerInv 255 ⟨⟨[⟨10, 50⟩]⟩, .ReuseFast, 10, 10, 50⟩ ∧
    IdManager.mark_value_as_used ⟨⟨[⟨10, 50⟩]⟩, .ReuseFast, 10, 10, 50⟩ 60
      = some ⟨⟨[⟨10, 50⟩]⟩, .ReuseFast, 10, 10, 50⟩ ∧
    IdManager.mark_interval_as_used 255 ⟨⟨[⟨10, 50⟩]⟩, .ReuseFast, 10, 10, 50⟩ 40 60
      = some ⟨⟨[⟨10, 39⟩]⟩, .ReuseFast, 10, 10, 50⟩ := by
  refine ⟨by decide, by decide, by decide⟩

/-- C3 (counterexample to the literal claim): `Interval::cmp` is not
lexicographic on `(lower, upper)` — for `a = [10, 40]` strictly nested in
`b = [0, 50]`, the code returns `Less` while the lexicographic order returns
`Greater`. -/
theorem claim_C3_counterexample :
    Interval.cmp ⟨10, 40⟩ ⟨0, 50⟩ = Ordering.lt ∧
    Interval.cmpSpec ⟨10, 40⟩ ⟨0, 50⟩ = Ordering.gt := by
  exact ⟨by decide, by decide⟩

/-- C3 (amended): `Interval::cmp` agrees with the lexicographic order on
`(lower, upper)` except exactly when the left interval is strictly nested
inside the right one (`b.lower < a.lower` and `a.upper < b.upper`). -/
theorem claim_C3_cmp_lexicographic_amended (a b : Interval)
    (h : ¬(b.lower < a.lower ∧ a.upper < b.upper)) :
    Interval.cmp a b = Interval.cmpSpec a b := by
  unfold Interval.cmp Interval.cmpSpec
  dsimp only
  cases hc : compare a.lower b.lower <;> cases hc2 : compare a.upper b.upper <;>
    simp <;>
    (rw [Nat.compare_eq_gt] at hc
     rw [Nat.compare_eq_lt] at hc2
     exact h ⟨hc, hc2⟩)

theorem claim_C3_witness :
    ¬((⟨1, 6⟩ : Interval).lower < (⟨0, 5⟩ : Interval).lower ∧
        (⟨0, 5⟩ : Interval).upper < (⟨1, 6⟩ : Interval).upper) ∧
    Interval.cmp ⟨0, 5⟩ ⟨1, 6⟩ = Interval.cmpSpec ⟨0, 5⟩ ⟨1, 6⟩ :=
  ⟨by decide, claim_C3_cmp_lexicographic_amended ⟨0, 5⟩ ⟨1, 6⟩ (by decide)⟩

/-- C10: `Interval::cmp` is not antisymmetric on overlapping intervals —
`[0, 50]` and `[10, 40]` each compare `Less` against the other — but on
well-formed non-overlapping intervals (the only ones an interval set stores
together) it coincides with strict ordering by lower bound and never returns
`Equal`, making it a strict total order there. -/
theorem claim_C10_cmp_total_order_on_disjoint (a b : Interval)
    (ha : a.lower ≤ a.upper) (hb : b.lower ≤ b.upper)
    (hdisj : a.overlaps b = false) :
    (Interval.cmp ⟨0, 50⟩ ⟨10, 40⟩ = Ordering.lt ∧
     Interval.cmp ⟨10, 40⟩ ⟨0, 50⟩ = Ordering.lt) ∧
    (Interval.cmp a b = Ordering.lt ↔ a.lower < b.lower) ∧
    (Interval.cmp a b = Ordering.gt ↔ b.lower < a.lower) ∧
    Interval.cmp a b ≠ Ordering.eq := by
  have hd : ¬(a.lower ≤ b.upper ∧ b.lower ≤ a.upper) := by
    intro hx
    rw [(Interval.overlaps_iff a b).mpr hx] at hdisj
    cases hdisj
  refine ⟨⟨by decide, by decide⟩, ?_, ?_, ?_⟩
  · rw [Interval.cmp_eq_lt_iff]
    omega
  · rw [Interval.cmp_eq_gt_iff]
    omega
  · rw [Ne, Interval.cmp_eq_eq_iff]
    intro hab
    rw [hab] at hd
    omega

theorem claim_C10_witness :
    (⟨0, 5⟩ : Interval).lower ≤ (⟨0, 5⟩ : Interval).upper ∧
    (⟨10, 20⟩ : Interval).lower ≤ (⟨10, 20⟩ : Interval).upper ∧
    Interval.overlaps ⟨0, 5⟩ ⟨10, 20⟩ = false ∧
    ((Interval.cmp ⟨0, 50⟩ ⟨10, 40⟩ = Ordering.lt ∧
      Interval.cmp ⟨10, 40⟩ ⟨0, 50⟩ = Ordering.lt) ∧
     (Interval.cmp ⟨0, 5⟩ ⟨10, 20⟩ = Ordering.lt ↔
        (⟨0, 5⟩ : Interval).lower < (⟨10, 20⟩ : Interval).lower) ∧
     (Interval.cmp ⟨0, 5⟩ ⟨10, 20⟩ = Ordering.gt ↔
        (⟨10, 20⟩ : Interval).lower < (⟨0, 5⟩ : Interval).lower) ∧
     Interval.cmp ⟨0, 5⟩ ⟨10, 20⟩ ≠ Ordering.eq) :=
  ⟨by decide, by decide, by decide,
    claim_C10_cmp_total_order_on_disjoint ⟨0, 5⟩ ⟨10, 20⟩
      (by decide) (by decide) (by decide)⟩

/-- C2 (counterexample to the literal claim): `free` is not bounds-checked,
so with any argument the API accepts the invariant can break — on the
manager with bounds `[10, 50]`, `free(60)` succeeds and leaves the
out-of-range value `60` in the free set, violating
`free_ids ⊆ [min_id, max_id]`. -/
theorem claim_C2_counterexample :
    ManagerInv 255 ⟨⟨[⟨10, 50⟩]⟩, .ReuseFast, 10, 10, 50⟩ ∧
    MgrOp.run 255 ⟨⟨[⟨10, 50⟩]⟩, .ReuseFast, 10, 10, 50⟩ (MgrOp.free 60)
      = ⟨⟨[⟨10, 50⟩, ⟨60, 60⟩]⟩, .ReuseFast, 10, 10, 50⟩ ∧
    ¬ ManagerInv 255 ⟨⟨[⟨10, 50⟩, ⟨60, 60⟩]⟩, .ReuseFast, 10, 10, 50⟩ := by
  exact ⟨by decide, by decide, by decide⟩

/-- C2 (amended): for every sequence of `allocate`, `free`,
`mark_value_as_used` and `mark_interval_as_used` calls in which every `free`
argument lies inside `[min_id, max_id]` (the marks and `allocate` may take
any argument the API accepts), the state invariant holds after each call:
every value in the free set lies within the manager's bounds and the cursor
`next_to_allocate` stays within them. -/
theorem claim_C2_manager_invariant_sequences {MAXV : Nat} {m : IdManager}
    {ops : List MgrOp} (hm : ManagerInv MAXV m)
    (hfree : ∀ op ∈ ops, op.freeInRange m) :
    (∀ i ∈ (runMgrOps MAXV m ops).free_ids.intervals,
        (runMgrOps MAXV m ops).min_id ≤ i.lower ∧
        i.upper ≤ (runMgrOps MAXV m ops).max_id) ∧
    (runMgrOps MAXV m ops).min_id ≤ (runMgrOps MAXV m ops).next_to_allocate ∧
    (runMgrOps MAXV m ops).next_to_allocate ≤ (runMgrOps MAXV m ops).max_id := by
  obtain ⟨hm2, -, -⟩ := runMgrOps_managerInv hm hfree
  exact ⟨fun i hi => ⟨(hm2.1.2 i hi).2.1, (hm2.1.2 i hi).2.2⟩,
    hm2.2.1, hm2.2.2.1⟩

theorem claim_C2_witness :
    ManagerInv 255 ⟨⟨[⟨10, 50⟩]⟩, .ReuseSlow, 10, 10, 50⟩ ∧
    (∀ op ∈ [MgrOp.alloc, MgrOp.free 10, MgrOp.markValue 20,
        MgrOp.markInterval 30 40, MgrOp.markValue 99],
      op.freeInRange ⟨⟨[⟨10, 50⟩]⟩, .ReuseSlow, 10, 10, 50⟩) ∧
    ((∀ i ∈ (runMgrOps 255 ⟨⟨[⟨10, 50⟩]⟩, .ReuseSlow, 10, 10, 50⟩
          [MgrOp.alloc, MgrOp.free 10, MgrOp.markValue 20,
            MgrOp.markInterval 30 40, MgrOp.markValue 99]).free_ids.intervals,
        (runMgrOps 255 ⟨⟨[⟨10, 50⟩]⟩, .ReuseSlow, 10, 10, 50⟩
          [MgrOp.alloc, MgrOp.free 10, MgrOp.markValue 20,
            MgrOp.markInterval 30 40, MgrOp.markValue 99]).min_id ≤ i.lower ∧
        i.upper ≤ (runMgrOps 255 ⟨⟨[⟨10, 50⟩]⟩, .ReuseSlow, 10, 10, 50⟩
          [MgrOp.alloc, MgrOp.free 10, MgrOp.markValue 20,
            MgrOp.markInterval 30 40, MgrOp.markValue 99]).max_id) ∧
      (runMgrOps 255 ⟨⟨[⟨10, 50⟩]⟩, .ReuseSlow, 10, 10, 50⟩
          [MgrOp.alloc, MgrOp.free 10, MgrOp.markValue 20,
            MgrOp.markInterval 30 40, MgrOp.markValue 99]).min_id ≤
        (runMgrOps 255 ⟨⟨[⟨10, 50⟩]⟩, .ReuseSlow, 10, 10, 50⟩
          [MgrOp.alloc, MgrOp.free 10, MgrOp.markValue 20,
            MgrOp.markInterval 30 40, MgrOp.markValue 99]).next_to_allocate ∧
      (runMgrOps 255 ⟨⟨[⟨10, 50⟩]⟩, .ReuseSlow, 10, 10, 50⟩
          [MgrOp.alloc, MgrOp.free 10, MgrOp.markValue 20,
            MgrOp.markInterval 30 40, MgrOp.markValue 99]).next_to_allocate ≤
        (runMgrOps 255 ⟨⟨[⟨10, 50⟩]⟩, .ReuseSlow, 10, 10, 50⟩
          [MgrOp.alloc, MgrOp.free 10, MgrOp.markValue 20,
            MgrOp.markInterval 30 40, MgrOp.markValue 99]).max_id) :=
  ⟨by decide, by decide,
    claim_C2_manager_invariant_sequences (by decide) (by decide)⟩

/-- C4: starting from any well-formed interval set, after every sequence of
`insert_value`, `insert_interval`, `remove_value`, `remove_first_value`,
`remove_first_interval` and `remove_interval` operations whose id arguments
fit the id type, the stored intervals are pairwise non-overlapping, no two
are adjacent (the upper of one is never exactly one below the lower of
another), and every stored interval satisfies `lower ≤ upper`. -/
theorem claim_C4_intervalset_invariant_sequences {MAXV : Nat} {s : Intervals}
    {ops : List SetOp} (h : Inv 0 MAXV s.intervals)
    (hv : ∀ op ∈ ops, op.validArg MAXV) :
    (∀ i ∈ (runSetOps MAXV s ops).intervals, i.lower ≤ i.upper) ∧
    List.Pairwise (fun a b => a.overlaps b = false ∧ b.overlaps a = false ∧
        a.upper + 1 ≠ b.lower ∧ b.upper + 1 ≠ a.lower)
      (runSetOps MAXV s ops).intervals := by
  have h2 := runSetOps_inv h hv
  refine ⟨fun i hi => (h2.2 i hi).1, ?_⟩
  refine h2.1.imp_of_mem ?_
  intro a b ha hb hsep
  have hwa := h2.2 a ha
  have hwb := h2.2 b hb
  unfold Interval.wf at hwa hwb
  unfold sepRel at hsep
  refine ⟨?_, ?_, by omega, by omega⟩
  · cases hx : a.overlaps b
    · rfl
    · rw [Interval.overlaps_iff] at hx
      omega
  · cases hx : b.overlaps a
    · rfl
    · rw [Interval.overlaps_iff] at hx
      omega

theorem claim_C4_witness :
    Inv 0 255 (⟨[⟨100, 200⟩]⟩ : Intervals).intervals ∧
    (∀ op ∈ [SetOp.insertValue 5, SetOp.insertInterval 10 20,
        SetOp.removeValue 15, SetOp.removeFirstValue,
        SetOp.removeInterval 150 255, SetOp.removeFirstInterval],
      op.validArg 255) ∧
    ((∀ i ∈ (runSetOps 255 ⟨[⟨100, 200⟩]⟩
          [SetOp.insertValue 5, SetOp.insertInterval 10 20,
            SetOp.removeValue 15, SetOp.removeFirstValue,
            SetOp.removeInterval 150 255, SetOp.removeFirstInterval]).intervals,
        i.lower ≤ i.upper) ∧
      List.Pairwise (fun a b => a.overlaps b = false ∧ b.overlaps a = false ∧
          a.upper + 1 ≠ b.lower ∧ b.upper + 1 ≠ a.lower)
        (runSetOps 255 ⟨[⟨100, 200⟩]⟩
          [SetOp.insertValue 5, SetOp.insertInterval 10 20,
            SetOp.removeValue 15, SetOp.removeFirstValue,
            SetOp.removeInterval 150 255, SetOp.removeFirstInterval]).intervals) :=
  ⟨by decide, by decide,
    claim_C4_intervalset_invariant_sequences (by decide) (by decide)⟩

/-- C5: under the delayed-reuse policy, a manager with a non-empty free set
always allocates: the wrapping cursor scan started at `next_to_allocate`
succeeds within fuel equal to the number of values in `[min_id, max_id]`
(the fuel `allocate` passes it), and the cursor increment wraps from
`max_id` back to `min_id`. -/
theorem claim_C5_slow_allocate_terminates {MAXV : Nat} {m : IdManager}
    (hm : ManagerInv MAXV m) (hpol : m.reuse_policy = ReusePolicy.ReuseSlow)
    (hne : m.free_ids.is_empty = false) :
    (∃ r, m.allocate = some r) ∧
    (∃ r, allocateScan m (m.max_id + 1 - m.min_id) m.next_to_allocate
      = some r) ∧
    m.increment_id m.max_id = m.min_id := by
  have hscan : ∃ r, allocateScan m (m.max_id + 1 - m.min_id)
      m.next_to_allocate = some r := by
    cases hl : m.free_ids.intervals with
    | nil =>
      exfalso
      unfold Intervals.is_empty at hne
      rw [hl] at hne
      cases hne
    | cons C rest =>
      have hCmem : C ∈ m.free_ids.intervals := by
        rw [hl]
        exact List.mem_cons_self C rest
      have hCw := hm.1.2 C hCmem
      unfold Interval.wf at hCw
      have hfree : ∃ e ∈ m.free_ids.intervals,
          e.contains_value C.lower = true := by
        refine ⟨C, hCmem, ?_⟩
        rw [Interval.contains_value_iff]
        omega
      refine allocateScan_succeeds (m.max_id + 1 - m.min_id)
        m.next_to_allocate hm.1 hfree hm.2.1 hm.2.2.1 ?_
      have h1 := hm.2.1
      have h2 := hm.2.2.1
      unfold cyclicDist
      split_ifs with hx
      · omega
      · omega
  refine ⟨?_, hscan, ?_⟩
  · unfold IdManager.allocate
    rw [hne]
    simp only [Bool.false_eq_true, if_false]
    rw [hpol]
    exact hscan
  · unfold IdManager.increment_id
    rw [if_pos rfl]

theorem claim_C5_witness :
    ManagerInv 255 ⟨⟨[⟨10, 50⟩]⟩, .ReuseSlow, 30, 10, 50⟩ ∧
    (⟨⟨[⟨10, 50⟩]⟩, .ReuseSlow, 30, 10, 50⟩ : IdManager).reuse_policy
      = ReusePolicy.ReuseSlow ∧
    (⟨⟨[⟨10, 50⟩]⟩, .ReuseSlow, 30, 10, 50⟩ : IdManager).free_ids.is_empty
      = false ∧
    ((∃ r, (⟨⟨[⟨10, 50⟩]⟩, .ReuseSlow, 30, 10, 50⟩ : IdManager).allocate
        = some r) ∧
     (∃ r, allocateScan ⟨⟨[⟨10, 50⟩]⟩, .ReuseSlow, 30, 10, 50⟩
        ((⟨⟨[⟨10, 50⟩]⟩, .ReuseSlow, 30, 10, 50⟩ : IdManager).max_id + 1 -
          (⟨⟨[⟨10, 50⟩]⟩, .ReuseSlow, 30, 10, 50⟩ : IdManager).min_id)
        (⟨⟨[⟨10, 50⟩]⟩, .ReuseSlow, 30, 10, 50⟩ :
          IdManager).next_to_allocate = some r) ∧
     (⟨⟨[⟨10, 50⟩]⟩, .ReuseSlow, 30, 10, 50⟩ : IdManager).increment_id
        (⟨⟨[⟨10, 50⟩]⟩, .ReuseSlow, 30, 10, 50⟩ : IdManager).max_id
      = (⟨⟨[⟨10, 50⟩]⟩, .ReuseSlow, 30, 10, 50⟩ : IdManager).min_id) :=
  ⟨by decide, by decide, by decide,
    @claim_C5_slow_allocate_terminates 255
      ⟨⟨[⟨10, 50⟩]⟩, .ReuseSlow, 30, 10, 50⟩
      (by decide) (by decide) (by decide)⟩

/-- C6: a manager built by `new_limited_range` for `[10, 50]` under
delayed-reuse returns 10, 11, …, 50 — each value exactly once, in ascending
order — over the first 41 `allocate` calls, and after the call that returns
50 the cursor has wrapped to 10; freeing 10 then makes the next `allocate`
return 10 again. -/
theorem claim_C6_bounded_range_ascending_allocation :
    ((IdManager.new_limited_range 255 ReusePolicy.ReuseSlow 10 50).bind
        fun m0 => allocN m0 41)
      = some (List.range' 10 41,
          ⟨⟨[]⟩, .ReuseSlow, 10, 10, 50⟩) ∧
    List.Pairwise (fun a b => a < b) (List.range' 10 41) ∧
    ((IdManager.new_limited_range 255 ReusePolicy.ReuseSlow 10 50).bind
        fun m0 => (allocN m0 41).bind fun t =>
          (IdManager.free 255 t.2 10).bind fun m3 => m3.allocate)
      = some (10, ⟨⟨[]⟩, .ReuseSlow, 11, 10, 50⟩) := by
  refine ⟨by rfl, by decide, by rfl⟩

/-- C7: for either reuse policy, if `allocate` returns `id` on a well-formed
manager then `free(id)` immediately afterwards succeeds and restores the
free-id set — and hence its `dump()` rendering — to exactly the
pre-allocation state. -/
theorem claim_C7_allocate_free_restores_dump {MAXV : Nat} {m : IdManager}
    {id : Nat} {m2 : IdManager} (hm : ManagerInv MAXV m)
    (heq : m.allocate = some (id, m2)) :
    ∃ m3, IdManager.free MAXV m2 id = some m3 ∧
      m3.free_ids = m.free_ids ∧ m3.dump = m.dump := by
  exact ⟨{ m2 with free_ids := m.free_ids },
    IdManager.allocate_free_roundtrip hm heq, rfl, rfl⟩

theorem claim_C7_witness :
    ManagerInv 255 ⟨⟨[⟨10, 50⟩]⟩, .ReuseFast, 10, 10, 50⟩ ∧
    (⟨⟨[⟨10, 50⟩]⟩, .ReuseFast, 10, 10, 50⟩ : IdManager).allocate
      = some (10, ⟨⟨[⟨11, 50⟩]⟩, .ReuseFast, 10, 10, 50⟩) ∧
    (∃ m3, IdManager.free 255 ⟨⟨[⟨11, 50⟩]⟩, .ReuseFast, 10, 10, 50⟩ 10
        = some m3 ∧
      m3.free_ids = (⟨⟨[⟨10, 50⟩]⟩, .ReuseFast, 10, 10, 50⟩ :
        IdManager).free_ids ∧
      m3.dump = (⟨⟨[⟨10, 50⟩]⟩, .ReuseFast, 10, 10, 50⟩ : IdManager).dump) :=
  ⟨by decide, by decide,
    claim_C7_allocate_free_restores_dump (by decide) (by decide)⟩

/-- C8: `remove_interval(lower, upper)` with `lower ≤ upper` never fails on
the boundary arithmetic of the id type: for any interval set whose members
fit the type, including ranges that reach the type's minimum 0 or maximum
`T::MAX`, the call completes normally (the side that would underflow below 0
or overflow above `T::MAX` is treated as having no remainder). -/
theorem claim_C8_remove_interval_boundary_safe {MAXV lower upper : Nat}
    {s : Intervals} (hlu : lower ≤ upper)
    (hwf : ∀ e ∈ s.intervals, e.upper ≤ MAXV) :
    ∃ t, s.remove_interval MAXV lower upper = some t :=
  Intervals.remove_interval_nopanic hlu hwf

theorem claim_C8_witness :
    (0 : Nat) ≤ 255 ∧
    (∀ e ∈ (⟨[⟨0, 10⟩, ⟨250, 255⟩]⟩ : Intervals).intervals,
      e.upper ≤ 255) ∧
    (∃ t, Intervals.remove_interval 255 ⟨[⟨0, 10⟩, ⟨250, 255⟩]⟩ 0 255
      = some t) :=
  ⟨by decide, by decide,
    claim_C8_remove_interval_boundary_safe (by decide) (by decide)⟩

/-- C9: failing mutations are atomic: on a well-formed interval set,
`insert_value` and `insert_interval` return `false` with the set completely
unchanged whenever the new range overlaps a stored interval, and on a
well-formed manager, `free(id)` of an id that is already free reports the
not-allocated error (modelled as `none`) without producing a new state. -/
theorem claim_C9_failed_mutations_atomic {LO HI MAXV v lower upper id : Nat}
    {l : List Interval} {m : IdManager}
    (h : Inv LO HI l) (hm : ManagerInv MAXV m) :
    ((∃ e ∈ l, e.overlaps ⟨v, v⟩ = true) →
      Intervals.insert_value MAXV ⟨l⟩ v = some (false, ⟨l⟩)) ∧
    (lower ≤ upper → (∃ e ∈ l, e.overlaps ⟨lower, upper⟩ = true) →
      Intervals.insert_interval MAXV ⟨l⟩ lower upper = some (false, ⟨l⟩)) ∧
    ((∃ e ∈ m.free_ids.intervals, e.contains_value id = true) →
      IdManager.free MAXV m id = none) := by
  refine ⟨?_, ?_, ?_⟩
  · intro hov
    unfold Intervals.insert_value
    exact Intervals.insert_overlap_eq h (le_refl v) hov
  · intro hlu hov
    unfold Intervals.insert_interval
    have hnew : Interval.new lower upper = some ⟨lower, upper⟩ := by
      unfold Interval.new
      rw [if_neg (by omega)]
    rw [hnew, Option.some_bind]
    exact Intervals.insert_overlap_eq h hlu hov
  · intro hcont
    obtain ⟨e, he, hec⟩ := hcont
    have hov : ∃ e2 ∈ m.free_ids.intervals,
        e2.overlaps ⟨id, id⟩ = true := by
      refine ⟨e, he, ?_⟩
      rw [Interval.overlaps_iff]
      have := (Interval.contains_value_iff e id).mp hec
      exact ⟨this.1, this.2⟩
    unfold IdManager.free
    have hins : m.free_ids.insert_value MAXV id
        = some (false, m.free_ids) :=
      Intervals.insert_overlap_eq hm.1 (le_refl id) hov
    rw [hins, Option.some_bind]
    rw [if_neg (by simp)]

theorem claim_C9_witness :
    Inv 0 255 [(⟨10, 50⟩ : Interval)] ∧
    ManagerInv 255 ⟨⟨[⟨10, 50⟩]⟩, .ReuseFast, 10, 10, 50⟩ ∧
    (((∃ e ∈ [(⟨10, 50⟩ : Interval)], e.overlaps ⟨20, 20⟩ = true) →
        Intervals.insert_value 255 ⟨[⟨10, 50⟩]⟩ 20
          = some (false, ⟨[⟨10, 50⟩]⟩)) ∧
      ((30 : Nat) ≤ 60 →
        (∃ e ∈ [(⟨10, 50⟩ : Interval)], e.overlaps ⟨30, 60⟩ = true) →
        Intervals.insert_interval 255 ⟨[⟨10, 50⟩]⟩ 30 60
          = some (false, ⟨[⟨10, 50⟩]⟩)) ∧
      ((∃ e ∈ (⟨⟨[⟨10, 50⟩]⟩, .ReuseFast, 10, 10, 50⟩ :
            IdManager).free_ids.intervals, e.contains_value 20 = true) →
        IdManager.free 255 ⟨⟨[⟨10, 50⟩]⟩, .ReuseFast, 10, 10, 50⟩ 20
          = none)) :=
  ⟨by decide, by decide,
    @claim_C9_failed_mutations_atomic 0 255 255 20 30 60 20
      [⟨10, 50⟩] ⟨⟨[⟨10, 50⟩]⟩, .ReuseFast, 10, 10, 50⟩
      (by decide) (by decide)⟩
